import Mathlib

/-!
Verification of the WebAssembly-to-Wimpl lowering pass
(src/lib/wasm/src/wimpl/wimplify.rs).

The data model (Var, Expr, Stmt, the label stack) and the per-function
lowering algorithm are shallowly embedded below, mirroring the Rust source
arm by arm.  The supporting types from the surrounding crate (highlevel
module/function descriptors, the streaming TypeChecker) are not part of the
given source file; they are modelled from the specification, as marked in
the corresponding doc comments.

Representation conventions:
* the expression stack is a Lean list whose HEAD is the TOP of the stack
  (Rust pushes/pops at the back of a Vec);
* the label stack likewise has its head at the top, so Rust
  label_stack.last() is List.head?, label_stack.first() is List.getLast?,
  and label_stack.iter().rev().nth(d) is List.get? d;
* Rust panics (assert!, expect, todo!, unimplemented!, panic!, indexing
  failures) are modelled as Failure.fatal, while values returned through
  the Result type are Failure.err; both short-circuit the Except monad,
  matching the fact that neither a panic nor an Err yields a module.
-/

namespace Wimplify

inductive ValType
  | i32
  | i64
  | f32
  | f64
deriving DecidableEq, Repr

/-- Constant values. Floats are irrelevant to every claim; their payload is
kept as opaque bit patterns. -/
inductive Val
  | I32 (v : Int)
  | I64 (v : Int)
  | F32 (bits : Nat)
  | F64 (bits : Nat)
deriving DecidableEq, Repr

/-- Default (zero) value of a type, as used to initialize locals. -/
def Val.get_default_value : ValType → Val
  | .i32 => .I32 0
  | .i64 => .I64 0
  | .f32 => .F32 0
  | .f64 => .F64 0

/-- Wimpl variables: the five families of the data model plus the return
slot, exactly as in wimpl's Var enum. -/
inductive Var
  | Param (n : Nat)
  | Local (n : Nat)
  | Global (n : Nat)
  | Stack (n : Nat)
  | BlockResult (n : Nat)
  | Return (n : Nat)
deriving DecidableEq, Repr

abbrev Label := Nat

/-- Binary operators.  Only I32Add is distinguished (it is the only one the
lowering constructs itself, for memarg offsets); all others are opaque. -/
inductive BinaryOp
  | I32Add
  | opcode (n : Nat)
deriving DecidableEq, Repr

inductive UnaryOp
  | uopcode (n : Nat)
deriving DecidableEq, Repr

inductive LoadOp
  | lopcode (n : Nat)
deriving DecidableEq, Repr

inductive StoreOp
  | sopcode (n : Nat)
deriving DecidableEq, Repr

structure FunctionType where
  inputs : List ValType
  results : List ValType
deriving DecidableEq, Repr

/-- Modelled from the spec: a FunctionId is derived deterministically from a
function's index and any available export/debug name (the FunctionId type
itself is outside the given source file). -/
inductive FunctionId
  | name (s : String)
  | idx (n : Nat)
deriving DecidableEq, Repr

/-- Wimpl expressions (wimpl's Expr enum). -/
inductive Expr
  | VarRef (v : Var)
  | Const (v : Val)
  | Unary (op : UnaryOp) (arg : Expr)
  | Binary (op : BinaryOp) (left right : Expr)
  | Load (op : LoadOp) (addr : Expr)
  | MemorySize
  | MemoryGrow (pages : Expr)
  | Call (func : FunctionId) (args : List Expr)
  | CallIndirect (type_ : FunctionType) (tableIdx : Expr) (args : List Expr)

/-- Wimpl statements (wimpl's Stmt enum); Body(vec) is represented directly
as a statement list. -/
inductive Stmt
  | Assign (lhs : Var) (type_ : ValType) (rhs : Expr)
  | Store (op : StoreOp) (addr value : Expr)
  | Expr (e : Expr)
  | Br (target : Label)
  | If (condition : Expr) (ifBody : List Stmt) (elseBody : Option (List Stmt))
  | Switch (index : Expr) (cases : List (List Stmt)) (defaultBody : List Stmt)
  | Block (body : List Stmt) (endLabel : Label)
  | Loop (beginLabel : Label) (body : List Stmt)
  | Unreachable

/-- Memory-access immediate: offset and (discarded) alignment hint.  The
offset is a u32 in the source. -/
structure Memarg where
  offset : Nat
  align : Nat
deriving DecidableEq, Repr

/-- The classification the streaming TypeChecker returns per instruction. -/
inductive InferredInstructionType
  | Unreachable
  | Reachable (ty : FunctionType)
deriving DecidableEq, Repr

/-- The input instructions (highlevel::Instr), restricted to the WebAssembly
MVP families the lowering handles. -/
inductive Instr
  | unreachable
  | nop
  | block (blocktype : Option ValType)
  | loop (blocktype : Option ValType)
  | if_ (blocktype : Option ValType)
  | else_
  | end_
  | ret
  | br (label : Nat)
  | brIf (label : Nat)
  | brTable (table : List Nat) (defaultLabel : Nat)
  | call (funcIdx : Nat)
  | callIndirect (type_ : FunctionType) (tableIdx : Nat)
  | drop
  | select
  | localGet (idx : Nat)
  | localSet (idx : Nat)
  | localTee (idx : Nat)
  | globalGet (idx : Nat)
  | globalSet (idx : Nat)
  | load (op : LoadOp) (memarg : Memarg)
  | store (op : StoreOp) (memarg : Memarg)
  | memorySize (memoryIdx : Nat)
  | memoryGrow (memoryIdx : Nat)
  | const (val : Val)
  | unary (op : UnaryOp)
  | binary (op : BinaryOp)
deriving DecidableEq, Repr

/-- Modelled from the spec: the highlevel::Function descriptor (not under
the given source file).  The streaming TypeChecker, which the lowerer
consumes in strict lockstep, is represented by its output: the code is the
instruction stream zipped with the checker's per-instruction classification
(or type error). -/
structure HLFunction where
  type_ : FunctionType
  locals : List (Option String × ValType)
  code : Option (List (Instr × Except String InferredInstructionType))
  exports : List String

/-- Modelled from the spec: the highlevel::Module descriptor; globals and
tables are opaque payloads that the module driver copies through. -/
structure HLModule where
  functions : List HLFunction
  globals : List Nat
  tables : List Nat

/-- How lowering fails: err models a value returned through Result (the
TypeChecker's errors and the FunctionId-clash rejection); fatal models a
Rust panic (assert!/expect/todo!/unimplemented!/panic!/indexing). -/
inductive Failure
  | err (msg : String)
  | fatal (msg : String)
deriving DecidableEq, Repr

/-- The mutable per-function conversion state (struct State).  The
instruction cursor and the type checker are fused into the oracle stream
instrs (see HLFunction.code). -/
structure State where
  instrs : List (Instr × Except String InferredInstructionType)
  label_count : Nat
  stack_var_count : Nat
  label_stack : List (Label × Bool × Option Var)

/-- The immutable conversion context (struct Context). -/
structure Context where
  module : HLModule
  func_ty : FunctionType

/-- Modelled from the spec: FunctionId::from_idx uses the export/debug name
when available, otherwise the numeric index. -/
def FunctionId.from_idx (idx : Nat) (module : HLModule) : FunctionId :=
  match module.functions.get? idx with
  | some f =>
    match f.exports.head? with
    | some n => .name n
    | none => .idx idx
  | none => .idx idx

/-- Allocates Stack(stack_var_count) and increments the counter
(create_fresh_stack_var). -/
def create_fresh_stack_var (s : State) : Var × State :=
  (Var.Stack s.stack_var_count, { s with stack_var_count := s.stack_var_count + 1 })

/-- The two materialization peepholes: a slot that is already a stack
variable reference or a constant is left in place. -/
def noMaterializeNeeded : Expr → Bool
  | .VarRef (.Stack _) => true
  | .Const _ => true
  | _ => false

/-- Worker for materialization.  Processes the expression stack given in
BOTTOM-first order (the order the Rust for-loop traverses the Vec),
allocating fresh stack variables from count upwards and emitting one Assign
per materialized slot, in that same order. -/
def materializeGo (count : Nat) : List (Expr × ValType) → Nat × List (Expr × ValType) × List Stmt
  | [] => (count, [], [])
  | (e, t) :: rest =>
    if noMaterializeNeeded e then
      let (c', rest', ss) := materializeGo count rest
      (c', (e, t) :: rest', ss)
    else
      let (c', rest', ss) := materializeGo (count + 1) rest
      (c', (Expr.VarRef (Var.Stack count), t) :: rest', Stmt.Assign (Var.Stack count) t e :: ss)

/-- materialize_all_exprs_as_stmts: turn every dormant expression still on
the stack into an Assign to a fresh stack variable (except the two peephole
cases) and replace the slot by a reference to that variable.  The input and
output stacks are TOP-first, hence the two reversals around the bottom-first
worker. -/
def materialize_all_exprs_as_stmts (s : State) (exprStack : List (Expr × ValType)) :
    State × List (Expr × ValType) × List Stmt :=
  let (c', revStack, ss) := materializeGo s.stack_var_count exprStack.reverse
  ({ s with stack_var_count := c' }, revStack.reverse, ss)

/-- local_idx_to_var: indices below the parameter count map to Param, the
others to Local (0-based after the parameters). -/
def local_idx_to_var (context : Context) (localIdx : Nat) : Var :=
  let numParams := context.func_ty.inputs.length
  if localIdx < numParams then Var.Param localIdx
  else Var.Local (localIdx - numParams)

/-- create_block_label_and_var: allocate the next label, push the frame, and
if the block type carries a result, push a reference to the BlockResult
variable onto the (caller's) expression stack. -/
def create_block_label_and_var (s : State) (exprStack : List (Expr × ValType))
    (blocktype : Option ValType) (isLoop : Bool) :
    Label × State × List (Expr × ValType) :=
  let label : Label := s.label_count
  let s := { s with label_count := s.label_count + 1 }
  match blocktype with
  | some t =>
    let resultVar := Var.BlockResult label
    (label,
     { s with label_stack := (label, isLoop, some resultVar) :: s.label_stack },
     (Expr.VarRef resultVar, t) :: exprStack)
  | none =>
    (label, { s with label_stack := (label, isLoop, none) :: s.label_stack }, exprStack)

/-- wasm_label_to_wimpl_label_and_block_var: resolve a branch depth against
the label stack; the carried result variable is returned only for non-loop
frames that have one. -/
def wasm_label_to_wimpl_label_and_block_var (s : State) (wasmLabel : Nat) :
    Except Failure (Label × Option Var) :=
  match s.label_stack.get? wasmLabel with
  | none => .error (.fatal "invalid branch label, not in label stack")
  | some (wimplLabel, isLoop, blockResult) =>
    match isLoop, blockResult with
    | false, some blockResultVar => .ok (wimplLabel, some blockResultVar)
    | true, some _ => .ok (wimplLabel, none)
    | _, none => .ok (wimplLabel, none)

/-- The per-target body builder of the br_table arm (br_with_maybe_assign):
a Br, preceded by an Assign of the (already materialized) top of stack when
the target carries a result variable. -/
def br_with_maybe_assign (s : State) (exprStack : List (Expr × ValType)) (label : Nat) :
    Except Failure (List Stmt) := do
  let (wimplLabel, blockVar) ← wasm_label_to_wimpl_label_and_block_var s label
  match blockVar with
  | some bv =>
    match exprStack with
    | [] => .error (.fatal "this br_table expects a value")
    | (branchValueVar, t) :: _ =>
      .ok [Stmt.Assign bv t branchValueVar, Stmt.Br wimplLabel]
  | none => .ok [Stmt.Br wimplLabel]

/-- Except-valued structural map, used for the br_table case bodies (the
Rust source maps a closure over the table; the closure's failures are
panics, which short-circuit here like every other fatal). -/
def mapMExcept {alpha beta : Type} (f : alpha → Except Failure beta) :
    List alpha → Except Failure (List beta)
  | [] => .ok []
  | a :: rest => do
    let b ← f a
    let bs ← mapMExcept f rest
    .ok (b :: bs)

/-- The lowering of one reachable instruction from every non-control family
of wimplify_instrs (everything except block/loop/if/else/end, whose arms
recurse or terminate the loop and therefore live in wimplify_instrs
itself).  Returns the emitted statements, the new expression stack and the
new state; each arm mirrors the corresponding Rust match arm, including the
order of pops, assertions and materialization. -/
def lower_simple_instr (context : Context) (s : State) (es : List (Expr × ValType))
    (instr : Instr) (ty : FunctionType) :
    Except Failure (List Stmt × List (Expr × ValType) × State) :=
  match instr with
  | .unreachable =>
    let (s', es', mats) := materialize_all_exprs_as_stmts s es
    .ok (mats ++ [Stmt.Unreachable], es', s')
  | .nop => .ok ([], es, s)
  | .ret =>
    match s.label_stack.getLast? with
    | none => .error (.fatal "empty label stack, but expected function")
    | some (wimplLabel, isLoop, returnVar) =>
      if wimplLabel ≠ 0 then
        .error (.fatal "first element on the label stack should point to function body label")
      else if isLoop then
        .error (.fatal "function body block should not have loop flag set")
      else
        match returnVar with
        | some rv =>
          match es with
          | [] => .error (.fatal "return expects a return value")
          | (returnExpr, t) :: esRest =>
            let (s', es', mats) := materialize_all_exprs_as_stmts s esRest
            .ok (mats ++ [Stmt.Assign rv t returnExpr, Stmt.Br wimplLabel], es', s')
        | none =>
          let (s', es', mats) := materialize_all_exprs_as_stmts s es
          .ok (mats ++ [Stmt.Br wimplLabel], es', s')
  | .br label => do
    let (wimplLabel, blockVar) ← wasm_label_to_wimpl_label_and_block_var s label
    match blockVar with
    | some bv =>
      match es with
      | [] => .error (.fatal "br to this label expects a value")
      | (branchValueVar, t) :: esRest =>
        let (s', es', mats) := materialize_all_exprs_as_stmts s esRest
        .ok (mats ++ [Stmt.Assign bv t branchValueVar, Stmt.Br wimplLabel], es', s')
    | none =>
      let (s', es', mats) := materialize_all_exprs_as_stmts s es
      .ok (mats ++ [Stmt.Br wimplLabel], es', s')
  | .brIf label =>
    match es with
    | [] => .error (.fatal "br_if expects a conditional on the stack")
    | (condition, conditionTy) :: esRest =>
      if conditionTy ≠ .i32 then .error (.fatal "br_if condition must be i32")
      else do
        let (wimplLabel, blockVar) ← wasm_label_to_wimpl_label_and_block_var s label
        let (s', es', mats) := materialize_all_exprs_as_stmts s esRest
        match blockVar with
        | some bv =>
          match es' with
          | [] => .error (.fatal "br_if to this label expects a value")
          | (branchValueVar, t) :: _ =>
            .ok (mats ++ [Stmt.If condition [Stmt.Assign bv t branchValueVar, Stmt.Br wimplLabel] none],
                 es', s')
        | none =>
          .ok (mats ++ [Stmt.If condition [Stmt.Br wimplLabel] none], es', s')
  | .brTable table defaultLabel =>
    match es with
    | [] => .error (.fatal "br_table expects an index into the table on the stack")
    | (tableIndexExpr, tableIndexTy) :: esRest =>
      if tableIndexTy ≠ .i32 then .error (.fatal "br_table index must be i32")
      else do
        let (s', es', mats) := materialize_all_exprs_as_stmts s esRest
        let cases ← mapMExcept (br_with_maybe_assign s' es') table
        let defaultBody ← br_with_maybe_assign s' es' defaultLabel
        .ok (mats ++ [Stmt.Switch tableIndexExpr cases defaultBody], es', s')
  | .call funcIdx =>
    match context.module.functions.get? funcIdx with
    | none => .error (.fatal "function index out of bounds")
    | some f =>
      let nArgs := f.type_.inputs.length
      if es.length < nArgs then .error (.fatal "split_off index out of bounds")
      else
        let args := ((es.take nArgs).reverse).map Prod.fst
        let esRest := es.drop nArgs
        let callExpr := Expr.Call (FunctionId.from_idx funcIdx context.module) args
        match ty.results with
        | [] =>
          let (s', es', mats) := materialize_all_exprs_as_stmts s esRest
          .ok (mats ++ [Stmt.Expr callExpr], es', s')
        | [t] => .ok ([], (callExpr, t) :: esRest, s)
        | _ => .error (.fatal "WebAssembly multi-value extension")
  | .callIndirect funcType tableIdx =>
    if tableIdx ≠ 0 then .error (.fatal "WebAssembly MVP must always have a single table")
    else
      match es with
      | [] => .error (.fatal "call_indirect expects a table index on the stack")
      | (tableIndexExpr, tableIndexTy) :: esRest =>
        if tableIndexTy ≠ .i32 then .error (.fatal "call_indirect index must be i32")
        else
          let nArgs := funcType.inputs.length
          if esRest.length < nArgs then .error (.fatal "split_off index out of bounds")
          else
            let args := ((esRest.take nArgs).reverse).map Prod.fst
            let esRest2 := esRest.drop nArgs
            let callExpr := Expr.CallIndirect funcType tableIndexExpr args
            match ty.results with
            | [] =>
              let (s', es', mats) := materialize_all_exprs_as_stmts s esRest2
              .ok (mats ++ [Stmt.Expr callExpr], es', s')
            | [t] => .ok ([], (callExpr, t) :: esRest2, s)
            | _ => .error (.fatal "WebAssembly multi-value extension")
  | .drop =>
    match es with
    | [] => .error (.fatal "drop expects a value on the stack")
    | (e, _) :: esRest =>
      match e with
      | .VarRef _ => .ok ([], esRest, s)
      | .Const _ => .ok ([], esRest, s)
      | e =>
        let (s', es', mats) := materialize_all_exprs_as_stmts s esRest
        .ok (mats ++ [Stmt.Expr e], es', s')
  | .select =>
    match es with
    | [] => .error (.fatal "select expects a conditional on the stack")
    | (condition, conditionTy) :: esRest =>
      if conditionTy ≠ .i32 then .error (.fatal "select condition must be i32")
      else
        match ty.results with
        | [] => .error (.fatal "index out of bounds")
        | t :: _ =>
          let (s', es', mats) := materialize_all_exprs_as_stmts s esRest
          match es' with
          | [] => .error (.fatal "select expects else value on the stack")
          | (elseResultVar, _) :: es'' =>
            match es'' with
            | [] => .error (.fatal "select expects if value on the stack")
            | (ifResultVar, _) :: es''' =>
              let (resultVar, s'') := create_fresh_stack_var s'
              .ok (mats ++ [Stmt.If condition
                     [Stmt.Assign resultVar t ifResultVar]
                     (some [Stmt.Assign resultVar t elseResultVar])],
                   (Expr.VarRef resultVar, t) :: es''', s'')
  | .localGet idx =>
    match ty.results with
    | [] => .error (.fatal "index out of bounds")
    | t :: _ => .ok ([], (Expr.VarRef (local_idx_to_var context idx), t) :: es, s)
  | .localSet idx =>
    match es with
    | [] => .error (.fatal "local.set expects a value on the stack")
    | (rhs, t) :: esRest =>
      match ty.inputs with
      | [] => .error (.fatal "index out of bounds")
      | t0 :: _ =>
        if t ≠ t0 then .error (.fatal "local.set value type mismatch")
        else
          let (s', es', mats) := materialize_all_exprs_as_stmts s esRest
          .ok (mats ++ [Stmt.Assign (local_idx_to_var context idx) t rhs], es', s')
  | .localTee idx =>
    match es with
    | [] => .error (.fatal "local.tee expects a value on the stack")
    | (value, t) :: esRest =>
      match ty.inputs with
      | [] => .error (.fatal "index out of bounds")
      | t0 :: _ =>
        if t ≠ t0 then .error (.fatal "local.tee value type mismatch")
        else
          let (s', es', mats) := materialize_all_exprs_as_stmts s esRest
          let localVar := local_idx_to_var context idx
          .ok (mats ++ [Stmt.Assign localVar t value], (Expr.VarRef localVar, t) :: es', s')
  | .globalGet idx =>
    match ty.results with
    | [] => .error (.fatal "index out of bounds")
    | t :: _ => .ok ([], (Expr.VarRef (Var.Global idx), t) :: es, s)
  | .globalSet idx =>
    match es with
    | [] => .error (.fatal "local.set expects a value on the stack")
    | (rhs, t) :: esRest =>
      match ty.inputs with
      | [] => .error (.fatal "index out of bounds")
      | t0 :: _ =>
        if t ≠ t0 then .error (.fatal "global.set value type mismatch")
        else
          let (s', es', mats) := materialize_all_exprs_as_stmts s esRest
          .ok (mats ++ [Stmt.Assign (Var.Global idx) t rhs], es', s')
  | .load op memarg =>
    match es with
    | [] => .error (.fatal "load expects an address on the stack")
    | (addr, addrTy) :: esRest =>
      if addrTy ≠ .i32 then .error (.fatal "load address must be i32")
      else
        match ty.results with
        | [] => .error (.fatal "index out of bounds")
        | t :: _ => do
          let addr ←
            if memarg.offset ≠ 0 then
              if memarg.offset < 2 ^ 31 then
                Except.ok (Expr.Binary BinaryOp.I32Add addr (Expr.Const (Val.I32 memarg.offset)))
              else Except.error (Failure.fatal "u32 to i32")
            else Except.ok addr
          .ok ([], (Expr.Load op addr, t) :: esRest, s)
  | .store op memarg =>
    match es with
    | [] => .error (.fatal "store expects a value to store on the stack")
    | (value, valueTy) :: esRest =>
      match ty.inputs.get? 1 with
      | none => .error (.fatal "index out of bounds")
      | some t1 =>
        if valueTy ≠ t1 then .error (.fatal "store value type mismatch")
        else
          match esRest with
          | [] => .error (.fatal "store expects an address on the stack")
          | (addr, addrTy) :: esRest2 =>
            if addrTy ≠ .i32 then .error (.fatal "store address must be i32")
            else do
              let addr ←
                if memarg.offset ≠ 0 then
                  if memarg.offset < 2 ^ 31 then
                    Except.ok (Expr.Binary BinaryOp.I32Add addr (Expr.Const (Val.I32 memarg.offset)))
                  else Except.error (Failure.fatal "u32 to i32")
                else Except.ok addr
              let (s', es', mats) := materialize_all_exprs_as_stmts s esRest2
              .ok (mats ++ [Stmt.Store op addr value], es', s')
  | .memorySize memoryIdx =>
    if memoryIdx ≠ 0 then .error (.fatal "Wasm MVP only has a single memory")
    else
      match ty.results with
      | [] => .error (.fatal "index out of bounds")
      | t :: _ => .ok ([], (Expr.MemorySize, t) :: es, s)
  | .memoryGrow memoryIdx =>
    if memoryIdx ≠ 0 then .error (.fatal "Wasm MVP only has a single memory")
    else
      match es with
      | [] => .error (.fatal "memory.grow expects a value on the stack")
      | (pages, pagesTy) :: esRest =>
        if pagesTy ≠ .i32 then .error (.fatal "memory.grow pages must be i32")
        else
          match ty.results with
          | [] => .error (.fatal "index out of bounds")
          | t :: _ => .ok ([], (Expr.MemoryGrow pages, t) :: esRest, s)
  | .const val =>
    match ty.results with
    | [] => .error (.fatal "index out of bounds")
    | t :: _ => .ok ([], (Expr.Const val, t) :: es, s)
  | .unary op =>
    match es with
    | [] => .error (.fatal "unary operation expects argument on the stack")
    | (arg, t) :: esRest =>
      match ty.inputs with
      | [] => .error (.fatal "index out of bounds")
      | t0 :: _ =>
        if t ≠ t0 then .error (.fatal "unary argument type mismatch")
        else
          match ty.results with
          | [] => .error (.fatal "index out of bounds")
          | tr :: _ => .ok ([], (Expr.Unary op arg, tr) :: esRest, s)
  | .binary op =>
    match es with
    | [] => .error (.fatal "binary operation expects right argument on the stack")
    | (right, tRight) :: esRest =>
      match ty.inputs.get? 1 with
      | none => .error (.fatal "index out of bounds")
      | some t1 =>
        if tRight ≠ t1 then .error (.fatal "binary right argument type mismatch")
        else
          match esRest with
          | [] => .error (.fatal "binary operation expects left argument on the stack")
          | (left, tLeft) :: esRest2 =>
            match ty.inputs with
            | [] => .error (.fatal "index out of bounds")
            | t0 :: _ =>
              if tLeft ≠ t0 then .error (.fatal "binary left argument type mismatch")
              else
                match ty.results with
                | [] => .error (.fatal "index out of bounds")
                | tr :: _ => .ok ([], (Expr.Binary op left right, tr) :: esRest2, s)
  | .block _ => .error (.fatal "not a simple instruction")
  | .loop _ => .error (.fatal "not a simple instruction")
  | .if_ _ => .error (.fatal "not a simple instruction")
  | .else_ => .error (.fatal "not a simple instruction")
  | .end_ => .error (.fatal "not a simple instruction")

/-- wimplify_instrs: the recursive driver of the conversion.  One call
lowers one nested block: it starts with an empty expression stack in the
Rust source; here the loop state (the expression stack) is an explicit
argument, and the loop's continue is a recursive call.  Returns the
statements produced for this block, the was_else flag, and the final state.
The fuel argument only forces termination; any fuel larger than the number
of remaining instructions is enough (the driver passes length + 1). -/
def wimplify_instrs (fuel : Nat) (context : Context) (s : State)
    (exprStack : List (Expr × ValType)) :
    Except Failure (List Stmt × Bool × State) :=
  match fuel with
  | 0 => .error (.fatal "fuel exhausted")
  | fuel + 1 =>
    match s.instrs with
    | [] => .ok ([], false, s)
    | (instr, tyResult) :: rest =>
      let s := { s with instrs := rest }
      match tyResult with
      | .error e => .error (.err e)
      | .ok .Unreachable =>
        match instr with
        | .end_ => .ok ([], false, { s with label_stack := s.label_stack.tail })
        | .else_ => .ok ([], true, s)
        | _ => wimplify_instrs fuel context s exprStack
      | .ok (.Reachable ty) =>
        match instr with
        | .block blocktype => do
          let (s1, es1, mats) := materialize_all_exprs_as_stmts s exprStack
          let (label, s2, es2) := create_block_label_and_var s1 es1 blocktype false
          let (blockBody, endsWithElse, s3) ← wimplify_instrs fuel context s2 []
          if endsWithElse then .error (.fatal "block should be terminated by end, not else")
          else do
            let (restStmts, wasElse, s4) ← wimplify_instrs fuel context s3 es2
            .ok (mats ++ Stmt.Block blockBody label :: restStmts, wasElse, s4)
        | .loop blocktype => do
          let (s1, es1, mats) := materialize_all_exprs_as_stmts s exprStack
          let (label, s2, es2) := create_block_label_and_var s1 es1 blocktype true
          let (loopBody, endsWithElse, s3) ← wimplify_instrs fuel context s2 []
          if endsWithElse then .error (.fatal "loop should be terminated by end, not else")
          else do
            let (restStmts, wasElse, s4) ← wimplify_instrs fuel context s3 es2
            .ok (mats ++ Stmt.Loop label loopBody :: restStmts, wasElse, s4)
        | .if_ blocktype =>
          match exprStack with
          | [] => .error (.fatal "if expects a condition which was not found on the stack")
          | (condition, conditionTy) :: esRest =>
            if conditionTy ≠ .i32 then .error (.fatal "if condition must be i32")
            else do
              let (s1, es1, mats) := materialize_all_exprs_as_stmts s esRest
              let (label, s2, es2) := create_block_label_and_var s1 es1 blocktype false
              let (ifBody, hasElse, s3) ← wimplify_instrs fuel context s2 []
              let (elseBody, s4) ←
                if hasElse then do
                  let (elseBody, endsWithElse, s4) ← wimplify_instrs fuel context s3 []
                  if endsWithElse then
                    .error (.fatal "else block should be terminated by end not else")
                  else Except.ok (some elseBody, s4)
                else Except.ok (none, s3)
              let (restStmts, wasElse, s5) ← wimplify_instrs fuel context s4 es2
              .ok (mats ++ Stmt.Block [Stmt.If condition ifBody elseBody] label :: restStmts,
                   wasElse, s5)
        | .else_ =>
          match s.label_stack with
          | [] => .error (.fatal "label stack should include if label")
          | (_label, isLoop, ifResultVar) :: _ =>
            if isLoop then .error (.fatal "if block result should never have loop flag set")
            else
              match ifResultVar with
              | some rv =>
                match exprStack with
                | [] => .error (.fatal "else expects if result value on the stack")
                | (value, t) :: esRest =>
                  if esRest.isEmpty then .ok ([Stmt.Assign rv t value], true, s)
                  else .error (.fatal "should not contain superfluous expressions")
              | none =>
                if exprStack.isEmpty then .ok ([], true, s)
                else .error (.fatal "should not contain superfluous expressions")
        | .end_ =>
          match s.label_stack with
          | [] => .error (.fatal "end of a block expects the matching label to be in the label stack")
          | (_label, _isLoop, blockResultVar) :: labelStackRest =>
            let s := { s with label_stack := labelStackRest }
            match blockResultVar with
            | some rv =>
              match exprStack with
              | [] => .error (.fatal "end expects if/block/loop result value on the stack")
              | (value, t) :: esRest =>
                if esRest.isEmpty then .ok ([Stmt.Assign rv t value], false, s)
                else .error (.fatal "should not contain superfluous expressions")
            | none =>
              if exprStack.isEmpty then .ok ([], false, s)
              else .error (.fatal "should not contain superfluous expressions")
        | other => do
          let (ss, es', s') ← lower_simple_instr context s exprStack other ty
          let (restStmts, wasElse, sf) ← wimplify_instrs fuel context s' es'
          .ok (ss ++ restStmts, wasElse, sf)

/-- Initialization of the declared (unnamed) local variables with their
default values; a named local aborts with the todo! diagnostic.  The
argument i is the 0-based index among declared locals (the Rust source's
local_idx minus the parameter count). -/
def initLocals (i : Nat) : List (Option String × ValType) → Except Failure (List Stmt)
  | [] => .ok []
  | (some _, _) :: _ => .error (.fatal "you haven't yet implemented locals having names")
  | (none, t) :: rest => do
    let restStmts ← initLocals (i + 1) rest
    .ok (Stmt.Assign (Var.Local i) t (Expr.Const (Val.get_default_value t)) :: restStmts)

/-- wimplify_function_body: seed the local defaults, build the function-body
label-stack frame (label 0, with Return 0 when the function has exactly one
result), and run the instruction lowerer over the whole body. -/
def wimplify_function_body (function : HLFunction) (module : HLModule) :
    Except Failure (List Stmt) := do
  let inits ← initLocals 0 function.locals
  match function.code with
  | none => .ok inits
  | some code => do
    let context : Context := { module := module, func_ty := function.type_ }
    let returnVar ←
      match function.type_.results with
      | [] => Except.ok none
      | [_] => Except.ok (some (Var.Return 0))
      | _ =>
        Except.error (Failure.fatal "only WebAssembly MVP is supported, not multi-value extension")
    let s : State :=
      { instrs := code
        label_count := 1
        stack_var_count := 0
        label_stack := [(0, false, returnVar)] }
    let (stmts, wasElse, _) ← wimplify_instrs (code.length + 1) context s []
    if wasElse then .error (.fatal "function should not end with else")
    else .ok (inits ++ stmts)

/-- A lowered function of the output module. -/
structure WimplFunction where
  type_ : FunctionType
  body : List Stmt
  name : FunctionId
  exports : List String

/-- The output module: lowered functions plus globals and tables copied
verbatim. -/
structure WimplModule where
  functions : List WimplFunction
  globals : List Nat
  tables : List Nat

/-- The per-function loop of the module driver: derive the FunctionId,
reject clashes with an Err, lower the body, and keep going.  idx is the
function's index, seen the set of already-produced FunctionIds. -/
def wimplifyFunctions (module : HLModule) :
    Nat → List FunctionId → List HLFunction → Except Failure (List WimplFunction)
  | _, _, [] => .ok []
  | idx, seen, f :: rest =>
    let name := FunctionId.from_idx idx module
    if seen.contains name then .error (.err "duplication function.name!")
    else do
      let body ← wimplify_function_body f module
      let others ← wimplifyFunctions module (idx + 1) (name :: seen) rest
      .ok ({ type_ := f.type_, body := body, name := name, exports := f.exports } :: others)

/-- wimplify: the module lowering entry point.  Lowers every function (with
FunctionId-uniqueness checking) and copies globals and tables through. -/
def wimplify (module : HLModule) : Except Failure WimplModule := do
  let functions ← wimplifyFunctions module 0 [] module.functions
  .ok { functions := functions, globals := module.globals, tables := module.tables }

/-! Concrete input programs used by the scenario claims.  The classification
attached to each instruction is the one the streaming type checker produces
for that (well-typed) body. -/

/-- Shorthand for a Reachable classification with the given signature. -/
def tyR (inputs results : List ValType) : Except String InferredInstructionType :=
  .ok (.Reachable ⟨inputs, results⟩)

/-- Shorthand for the Unreachable classification. -/
def tyU : Except String InferredInstructionType := .ok .Unreachable

/-- A module with no functions, used as context for single-function runs. -/
def emptyModule : HLModule := { functions := [], globals := [], tables := [] }

/-- Scenario body const 1; const 2; i32.add; drop; end in a function with no
locals and no result. -/
def addDropFunction : HLFunction :=
  { type_ := ⟨[], []⟩
    locals := []
    code := some
      [(.const (.I32 1), tyR [] [.i32]),
       (.const (.I32 2), tyR [] [.i32]),
       (.binary .I32Add, tyR [.i32, .i32] [.i32]),
       (.drop, tyR [.i32] []),
       (.end_, tyR [] [])]
    exports := [] }

/-- Scenario body local.get 0; i32.const 7; br 0; end in a function of type
i32 to i32 (so the br target carries the Return 0 variable, and a dormant
parameter reference sits below the branch value). -/
def brValueOrderFunction : HLFunction :=
  { type_ := ⟨[.i32], [.i32]⟩
    locals := []
    code := some
      [(.localGet 0, tyR [] [.i32]),
       (.const (.I32 7), tyR [] [.i32]),
       (.br 0, tyR [.i32] []),
       (.end_, tyU)]
    exports := [] }

/-- A function with a single named local; looking at it at all makes the
lowering hit the todo! for named locals. -/
def namedLocalFunction : HLFunction :=
  { type_ := ⟨[], []⟩, locals := [(some "x", .i32)], code := none, exports := [] }

/-- A module whose only function has a named local. -/
def namedLocalModule : HLModule :=
  { functions := [namedLocalFunction], globals := [], tables := [] }

/-- A trivial function exported under the name f. -/
def exportedEmptyFunction : HLFunction :=
  { type_ := ⟨[], []⟩, locals := [], code := none, exports := ["f"] }

/-- A module with two functions that both produce FunctionId name f. -/
def clashModule : HLModule :=
  { functions := [exportedEmptyFunction, exportedEmptyFunction], globals := [], tables := [] }

/-- A module whose only function's first instruction fails type checking. -/
def typeErrorModule : HLModule :=
  { functions :=
      [{ type_ := ⟨[], []⟩
         locals := []
         code := some [(.nop, Except.error "type error at instruction 0")]
         exports := [] }]
    globals := []
    tables := [] }

/-- A well-typed function on which the end-pairing of the lowerer breaks:
block (result i32) { block { br 0; block { } end } end; i32.const 7 } end;
drop; end.  The classifications are those of the standard streaming
validator: everything from the br up to the end that closes the br's target
frame is dead (including the nested block/end pair), and the code after
that end is live again. -/
def deadNestedBlocksFunction : HLFunction :=
  { type_ := ⟨[], []⟩
    locals := []
    code := some
      [(.block (some .i32), tyR [] []),
       (.block none, tyR [] []),
       (.br 0, tyR [] []),
       (.block none, tyU),
       (.end_, tyU),
       (.end_, tyU),
       (.const (.I32 7), tyR [] [.i32]),
       (.end_, tyR [.i32] [.i32]),
       (.drop, tyR [.i32] []),
       (.end_, tyR [] [])]
    exports := [] }

/-- Scenario body const 5; const 0; br_if 0; drop; end in a function
returning nothing. -/
def brIfConstFunction : HLFunction :=
  { type_ := ⟨[], []⟩
    locals := []
    code := some
      [(.const (.I32 5), tyR [] [.i32]),
       (.const (.I32 0), tyR [] [.i32]),
       (.brIf 0, tyR [.i32] []),
       (.drop, tyR [.i32] []),
       (.end_, tyR [] [])]
    exports := [] }

/-- Body const 1; const 2; const 0; select; local.set 0; end in a function
with one declared i32 local: the select temporary Stack 0 is assigned in
both arms of the emitted If and read afterwards. -/
def selectDoubleAssignFunction : HLFunction :=
  { type_ := ⟨[], []⟩
    locals := [(none, .i32)]
    code := some
      [(.const (.I32 1), tyR [] [.i32]),
       (.const (.I32 2), tyR [] [.i32]),
       (.const (.I32 0), tyR [] [.i32]),
       (.select, tyR [.i32, .i32, .i32] [.i32]),
       (.localSet 0, tyR [.i32] []),
       (.end_, tyR [] [])]
    exports := [] }

/-! Claim C1.  The spec scenario asserts that dropping the pure expression
Binary(Add, Const 1, Const 2) emits nothing, so the output body is empty.
The drop arm, however, only discards VarRef and Const operands silently;
any other expression, pure or not, is emitted as an expression statement. -/

/-- C1 counterexample: lowering const 1; const 2; i32.add; drop; end does
not produce an empty body. -/
theorem C1_counterexample :
    wimplify_function_body addDropFunction emptyModule ≠ Except.ok [] :=
  fun h =>
    nomatch (show (Except.ok [Stmt.Expr (Expr.Binary BinaryOp.I32Add
        (Expr.Const (Val.I32 1)) (Expr.Const (Val.I32 2)))] :
        Except Failure (List Stmt)) = Except.ok [] from h)

/-- C1 amended: lowering const 1; const 2; i32.add; drop; end produces the
single statement Expr(Binary(Add, Const 1, Const 2)) — drop silences only
VarRef and Const operands, so the dropped Binary expression is emitted as
an expression statement. -/
theorem C1_amended_body :
    wimplify_function_body addDropFunction emptyModule =
      Except.ok [Stmt.Expr (Expr.Binary BinaryOp.I32Add
        (Expr.Const (Val.I32 1)) (Expr.Const (Val.I32 2)))] := rfl

/-! Claim C3.  Only type-checker errors and FunctionId clashes travel as
Err; unsupported features and invariant violations are panics. -/

/-- C3 counterexample: a module whose function has a named local makes
wimplify abort through the todo! panic, not through a returned Err. -/
theorem C3_counterexample :
    wimplify namedLocalModule =
      Except.error (Failure.fatal "you haven't yet implemented locals having names") := rfl

/-- A named local anywhere in the declared-locals list makes initLocals hit
the todo! diagnostic, regardless of position and start index. -/
theorem initLocals_named : ∀ (i : Nat) (locals : List (Option String × ValType)),
    (∃ p ∈ locals, (p.1).isSome = true) →
    initLocals i locals =
      .error (.fatal "you haven't yet implemented locals having names") := by
  intro i locals
  induction locals generalizing i with
  | nil =>
    intro ⟨p, hp, _⟩
    exact absurd hp (List.not_mem_nil _)
  | cons q rest ih =>
    obtain ⟨nm, t⟩ := q
    intro ⟨p, hp, hname⟩
    cases nm with
    | some nm => rfl
    | none =>
      rcases List.mem_cons.mp hp with rfl | hp
      · exact absurd hname (by simp)
      · simp only [initLocals, ih (i + 1) ⟨p, hp, hname⟩]
        rfl

/-- All-unnamed declared locals initialize successfully. -/
theorem initLocals_unnamed_ok : ∀ (i : Nat) (locals : List (Option String × ValType)),
    (∀ p ∈ locals, p.1 = none) →
    ∃ inits, initLocals i locals = .ok inits := by
  intro i locals
  induction locals generalizing i with
  | nil => exact fun _ => ⟨[], rfl⟩
  | cons q rest ih =>
    obtain ⟨nm, t⟩ := q
    intro hun
    have hhd : nm = none := hun (nm, t) (List.mem_cons_self _ _)
    subst hhd
    obtain ⟨restS, hrest⟩ := ih (i + 1) (fun p hp => hun p (List.mem_cons_of_mem _ hp))
    refine ⟨Stmt.Assign (Var.Local i) t (Expr.Const (Val.get_default_value t)) :: restS, ?_⟩
    simp only [initLocals, hrest]
    rfl

/-- A function typed () -> (i32, i32): two results hit the multi-value
panic. -/
def multiResultFunction : HLFunction :=
  { type_ := ⟨[], [.i32, .i32]⟩, locals := [], code := some [], exports := [] }

/-- C3 amended: the two Err classes and the panic classes, universally.
(a) Any function with a named local aborts with the named-locals todo!
panic, whatever its code; (b) any function with unnamed locals, a code
stream and two or more result types aborts with the multi-value panic -
both are panics, not returned Errs; (c) an ill-typed instruction at the
head of the stream is returned as Err carrying the type checker's message;
(d) the module driver rejects a function whose FunctionId is already taken
with Err "duplication function.name!"; (e) for every module, wimplify
returns either a complete module or a single failure value carrying a
string - an Err or a panic - never a partial module. -/
theorem C3_amended_error_classes :
    (∀ (function : HLFunction) (module : HLModule),
      (∃ p ∈ function.locals, (p.1).isSome = true) →
      wimplify_function_body function module =
        Except.error (Failure.fatal "you haven't yet implemented locals having names")) ∧
    (∀ (function : HLFunction) (module : HLModule)
      (code : List (Instr × Except String InferredInstructionType)),
      function.code = some code →
      (∀ p ∈ function.locals, p.1 = none) →
      2 ≤ function.type_.results.length →
      wimplify_function_body function module =
        Except.error
          (Failure.fatal "only WebAssembly MVP is supported, not multi-value extension")) ∧
    (∀ (fuel : Nat) (context : Context) (s : State) (es : List (Expr × ValType))
      (instr : Instr) (e : String)
      (rest : List (Instr × Except String InferredInstructionType)),
      s.instrs = (instr, Except.error e) :: rest →
      wimplify_instrs (fuel + 1) context s es = Except.error (Failure.err e)) ∧
    (∀ (module : HLModule) (idx : Nat) (seen : List FunctionId)
      (f : HLFunction) (rest : List HLFunction),
      seen.contains (FunctionId.from_idx idx module) = true →
      wimplifyFunctions module idx seen (f :: rest) =
        Except.error (Failure.err "duplication function.name!")) ∧
    (∀ module : HLModule,
      (∃ m, wimplify module = Except.ok m) ∨
      (∃ s, wimplify module = Except.error (Failure.err s)) ∨
      (∃ s, wimplify module = Except.error (Failure.fatal s))) := by
  refine ⟨?_, ?_, ?_, ?_, ?_⟩
  · intro function module hnamed
    simp only [wimplify_function_body, initLocals_named 0 function.locals hnamed]
    rfl
  · intro function module code hcode hun hlen
    obtain ⟨inits, hinit⟩ := initLocals_unnamed_ok 0 function.locals hun
    rcases hres : function.type_.results with _ | ⟨r1, tl⟩
    · rw [hres] at hlen
      simp at hlen
    · rcases tl with _ | ⟨r2, rs⟩
      · rw [hres] at hlen
        simp at hlen
      · simp only [wimplify_function_body, hinit, hcode, hres]
        rfl
  · intro fuel context s es instr e rest hinstrs
    simp only [wimplify_instrs, hinstrs]
  · intro module idx seen f rest hcontains
    simp only [wimplifyFunctions, hcontains]
    rfl
  · intro module
    cases hw : wimplify module with
    | ok m => exact Or.inl ⟨m, rfl⟩
    | error f =>
      cases f with
      | err s => exact Or.inr (Or.inl ⟨s, rfl⟩)
      | fatal s => exact Or.inr (Or.inr ⟨s, rfl⟩)

/-- C3 witness: the amended classes at concrete inputs: the named-local
function panics with the todo! diagnostic, the two-result function panics
with the MVP diagnostic, a type-checker error at the stream head comes
back as Err with its message, a clashing FunctionId is rejected with the
duplication Err, and wimplify of the clash module returns a single
failure, not a partial module. -/
theorem C3_amended_error_classes_witness :
    wimplify_function_body namedLocalFunction emptyModule =
      Except.error (Failure.fatal "you haven't yet implemented locals having names") ∧
    wimplify_function_body multiResultFunction emptyModule =
      Except.error
        (Failure.fatal "only WebAssembly MVP is supported, not multi-value extension") ∧
    wimplify_instrs 1 { module := emptyModule, func_ty := ⟨[], []⟩ }
      { instrs := [(Instr.nop, Except.error "type error at instruction 0")],
        label_count := 1, stack_var_count := 0, label_stack := [(0, false, none)] } [] =
      Except.error (Failure.err "type error at instruction 0") ∧
    wimplifyFunctions clashModule 1 [FunctionId.name "f"] [exportedEmptyFunction] =
      Except.error (Failure.err "duplication function.name!") ∧
    ((∃ m, wimplify clashModule = Except.ok m) ∨
      (∃ s, wimplify clashModule = Except.error (Failure.err s)) ∨
      (∃ s, wimplify clashModule = Except.error (Failure.fatal s))) :=
  ⟨C3_amended_error_classes.1 namedLocalFunction emptyModule
      ⟨(some "x", ValType.i32), List.mem_cons_self _ _, rfl⟩,
   C3_amended_error_classes.2.1 multiResultFunction emptyModule [] rfl
      (fun p hp => absurd hp (List.not_mem_nil _)) (by decide),
   C3_amended_error_classes.2.2.1 0 _ _ [] Instr.nop "type error at instruction 0" [] rfl,
   C3_amended_error_classes.2.2.2.1 clashModule 1 [FunctionId.name "f"]
      exportedEmptyFunction [] (by decide),
   C3_amended_error_classes.2.2.2.2 clashModule⟩

/-! Claim C6.  On a well-typed function whose dead code contains a nested
block, the unreachable-mode end arm returns from the current lowering level
at the first dead end, so the ends get mispaired and the reachable end of
the outer block runs against the wrong frame: the emptiness assertion
fails even though the input is valid. -/

/-- C6: evaluating the lowering on the well-typed deadNestedBlocksFunction
hits the should-not-contain-superfluous-expressions assertion. -/
theorem C6_assertion_fails_on_welltyped :
    wimplify_function_body deadNestedBlocksFunction emptyModule =
      Except.error (Failure.fatal "should not contain superfluous expressions") := rfl

/-! Claim C9.  The br_if scenario: the Const 5 below the branch is kept by
the Const peephole, br_if lowers to If(Const 0, some Br L0, none), and the
drop of the surviving Const 5 emits nothing. -/

/-- C9: lowering const 5; const 0; br_if 0; drop; end yields exactly
If(Const 0, if body Br L0, no else body). -/
theorem C9_br_if_const_scenario :
    wimplify_function_body brIfConstFunction emptyModule =
      Except.ok [Stmt.If (Expr.Const (Val.I32 0)) [Stmt.Br 0] none] := rfl

/-! Claim C4: label resolution. -/

/-- C4: for every depth valid in the label stack, resolution returns the
frame's label together with the frame's result variable exactly when the
frame is not a loop; a loop frame yields none even when it has a result
variable. -/
theorem C4_label_resolution (s : State) (d : Nat) (h : d < s.label_stack.length) :
    wasm_label_to_wimpl_label_and_block_var s d =
      Except.ok ((s.label_stack.get ⟨d, h⟩).1,
        if (s.label_stack.get ⟨d, h⟩).2.1 = true then none
        else (s.label_stack.get ⟨d, h⟩).2.2) ∧
    ((if (s.label_stack.get ⟨d, h⟩).2.1 = true then none
        else (s.label_stack.get ⟨d, h⟩).2.2).isSome ↔
      ((s.label_stack.get ⟨d, h⟩).2.1 = false ∧ (s.label_stack.get ⟨d, h⟩).2.2.isSome)) := by
  constructor
  · unfold wasm_label_to_wimpl_label_and_block_var
    rw [List.get?_eq_get h]
    obtain ⟨l, isLoop, bv⟩ := s.label_stack.get ⟨d, h⟩
    cases isLoop <;> cases bv <;> simp
  · obtain ⟨l, isLoop, bv⟩ := s.label_stack.get ⟨d, h⟩
    cases isLoop <;> cases bv <;> simp

/-- A small state whose label stack has a loop frame with a result variable
on top of a non-loop frame with a result variable. -/
def labelStackSample : State :=
  { instrs := []
    label_count := 6
    stack_var_count := 0
    label_stack := [(5, true, some (Var.BlockResult 5)), (3, false, some (Var.BlockResult 3))] }

/-- C4 witness: depth 0 hits the loop frame (carried variable suppressed),
depth 1 hits the plain block frame (carried variable returned). -/
theorem C4_label_resolution_witness :
    wasm_label_to_wimpl_label_and_block_var labelStackSample 0 = Except.ok (5, none) ∧
    wasm_label_to_wimpl_label_and_block_var labelStackSample 1 =
      Except.ok (3, some (Var.BlockResult 3)) :=
  ⟨(C4_label_resolution labelStackSample 0 (by decide)).1,
   (C4_label_resolution labelStackSample 1 (by decide)).1⟩

/-! Claim C7: behaviour of the lowerer in unreachable mode. -/

/-- C7: if the checker classifies the next instruction Unreachable, then an
end pops the top label-stack frame and returns not-else, an else returns
else without popping, and any other instruction leaves the output, the
expression stack and the label stack untouched and moves on.  No statement
is appended in any of the three cases. -/
theorem C7_unreachable_mode (fuel : Nat) (context : Context) (instr : Instr)
    (rest : List (Instr × Except String InferredInstructionType))
    (lc svc : Nat) (ls : List (Label × Bool × Option Var))
    (es : List (Expr × ValType)) :
    (instr = .end_ →
      wimplify_instrs (fuel + 1) context
          { instrs := (instr, Except.ok .Unreachable) :: rest, label_count := lc,
            stack_var_count := svc, label_stack := ls } es =
        Except.ok ([], false,
          { instrs := rest, label_count := lc, stack_var_count := svc,
            label_stack := ls.tail })) ∧
    (instr = .else_ →
      wimplify_instrs (fuel + 1) context
          { instrs := (instr, Except.ok .Unreachable) :: rest, label_count := lc,
            stack_var_count := svc, label_stack := ls } es =
        Except.ok ([], true,
          { instrs := rest, label_count := lc, stack_var_count := svc,
            label_stack := ls })) ∧
    (instr ≠ .end_ → instr ≠ .else_ →
      wimplify_instrs (fuel + 1) context
          { instrs := (instr, Except.ok .Unreachable) :: rest, label_count := lc,
            stack_var_count := svc, label_stack := ls } es =
        wimplify_instrs fuel context
          { instrs := rest, label_count := lc, stack_var_count := svc,
            label_stack := ls } es) := by
  refine ⟨?_, ?_, ?_⟩
  · intro h; subst h; rfl
  · intro h; subst h; rfl
  · intro h1 h2
    cases instr <;> first | rfl | exact absurd rfl h1 | exact absurd rfl h2

/-- C7 witness: a dead nop between a dead drop and the rest is skipped with
no effect on state or output. -/
theorem C7_unreachable_mode_witness :
    wimplify_instrs 2 { module := emptyModule, func_ty := ⟨[], []⟩ }
        { instrs := [(.nop, Except.ok .Unreachable)], label_count := 1,
          stack_var_count := 0, label_stack := [(0, false, none)] } [] =
      wimplify_instrs 1 { module := emptyModule, func_ty := ⟨[], []⟩ }
        { instrs := [], label_count := 1, stack_var_count := 0,
          label_stack := [(0, false, none)] } [] :=
  (C7_unreachable_mode 1 { module := emptyModule, func_ty := ⟨[], []⟩ } .nop []
    1 0 [(0, false, none)] []).2.2 (by decide) (by decide)

/-! Claim C10: memarg offsets on load and store. -/

/-- C10: a zero offset leaves the popped address unchanged, an offset below
2^31 wraps it in Binary(I32Add, addr, Const(I32 offset)), and an offset of
2^31 or more (still a u32) aborts with the u32-to-i32 conversion panic and
never returns an Err or an address expression; the same holds for store. -/
theorem C10_memarg_offset (context : Context) (s : State) (addr value : Expr)
    (esRest : List (Expr × ValType)) (lop : LoadOp) (sop : StoreOp)
    (offset align : Nat) (ty : FunctionType) (t vt : ValType) (trest : List ValType) :
    (ty.results = t :: trest →
      (offset = 0 →
        lower_simple_instr context s ((addr, .i32) :: esRest) (.load lop ⟨offset, align⟩) ty =
          Except.ok ([], (Expr.Load lop addr, t) :: esRest, s)) ∧
      (0 < offset → offset < 2 ^ 31 →
        lower_simple_instr context s ((addr, .i32) :: esRest) (.load lop ⟨offset, align⟩) ty =
          Except.ok ([], (Expr.Load lop
            (Expr.Binary BinaryOp.I32Add addr (Expr.Const (Val.I32 offset))), t) :: esRest, s)) ∧
      (2 ^ 31 ≤ offset → offset < 2 ^ 32 →
        lower_simple_instr context s ((addr, .i32) :: esRest) (.load lop ⟨offset, align⟩) ty =
          Except.error (Failure.fatal "u32 to i32"))) ∧
    (ty.inputs.get? 1 = some vt →
      (offset = 0 →
        lower_simple_instr context s ((value, vt) :: (addr, .i32) :: esRest)
            (.store sop ⟨offset, align⟩) ty =
          Except.ok ((materialize_all_exprs_as_stmts s esRest).2.2 ++
              [Stmt.Store sop addr value],
            (materialize_all_exprs_as_stmts s esRest).2.1,
            (materialize_all_exprs_as_stmts s esRest).1)) ∧
      (0 < offset → offset < 2 ^ 31 →
        lower_simple_instr context s ((value, vt) :: (addr, .i32) :: esRest)
            (.store sop ⟨offset, align⟩) ty =
          Except.ok ((materialize_all_exprs_as_stmts s esRest).2.2 ++
              [Stmt.Store sop
                (Expr.Binary BinaryOp.I32Add addr (Expr.Const (Val.I32 offset))) value],
            (materialize_all_exprs_as_stmts s esRest).2.1,
            (materialize_all_exprs_as_stmts s esRest).1)) ∧
      (2 ^ 31 ≤ offset → offset < 2 ^ 32 →
        lower_simple_instr context s ((value, vt) :: (addr, .i32) :: esRest)
            (.store sop ⟨offset, align⟩) ty =
          Except.error (Failure.fatal "u32 to i32"))) := by
  rcases hm : materialize_all_exprs_as_stmts s esRest with ⟨sm, esm, mats⟩
  have h31 : (2 : Nat) ^ 31 = 2147483648 := by norm_num
  constructor
  · intro hres
    refine ⟨?_, ?_, ?_⟩
    · intro h0
      subst h0
      simp [lower_simple_instr, hres]
      rfl
    · intro hpos hlt
      rw [h31] at hlt
      have hne : offset ≠ 0 := Nat.pos_iff_ne_zero.mp hpos
      simp [lower_simple_instr, hres, hne, hlt]
      rfl
    · intro hge _
      rw [h31] at hge
      have hne : offset ≠ 0 := by omega
      have hnlt : ¬ offset < 2147483648 := by omega
      simp [lower_simple_instr, hres, hne, hnlt]
      rfl
  · intro hinp
    rw [List.get?_eq_getElem?] at hinp
    refine ⟨?_, ?_, ?_⟩
    · intro h0
      subst h0
      simp [lower_simple_instr, hinp, hm]
      rfl
    · intro hpos hlt
      rw [h31] at hlt
      have hne : offset ≠ 0 := Nat.pos_iff_ne_zero.mp hpos
      simp [lower_simple_instr, hinp, hm, hne, hlt]
      rfl
    · intro hge _
      rw [h31] at hge
      have hne : offset ≠ 0 := by omega
      have hnlt : ¬ offset < 2147483648 := by omega
      simp [lower_simple_instr, hinp, hm, hne, hnlt]
      rfl

/-- C10 witness: a load whose memarg offset is exactly 2^31 panics with the
u32-to-i32 diagnostic; one with offset 8 wraps the address. -/
theorem C10_memarg_offset_witness :
    lower_simple_instr { module := emptyModule, func_ty := ⟨[], []⟩ } labelStackSample
        [(Expr.VarRef (Var.Param 0), .i32)] (.load (.lopcode 0) ⟨2 ^ 31, 0⟩) ⟨[.i32], [.i32]⟩ =
      Except.error (Failure.fatal "u32 to i32") ∧
    lower_simple_instr { module := emptyModule, func_ty := ⟨[], []⟩ } labelStackSample
        [(Expr.VarRef (Var.Param 0), .i32)] (.load (.lopcode 0) ⟨8, 0⟩) ⟨[.i32], [.i32]⟩ =
      Except.ok ([], [(Expr.Load (.lopcode 0)
        (Expr.Binary BinaryOp.I32Add (Expr.VarRef (Var.Param 0)) (Expr.Const (Val.I32 8))), .i32)],
        labelStackSample) :=
  ⟨((C10_memarg_offset { module := emptyModule, func_ty := ⟨[], []⟩ } labelStackSample
      (Expr.VarRef (Var.Param 0)) (Expr.VarRef (Var.Param 0)) [] (.lopcode 0) (.sopcode 0)
      (2 ^ 31) 0 ⟨[.i32], [.i32]⟩ .i32 .i32 [] ).1 rfl).2.2 (by norm_num) (by norm_num),
   ((C10_memarg_offset { module := emptyModule, func_ty := ⟨[], []⟩ } labelStackSample
      (Expr.VarRef (Var.Param 0)) (Expr.VarRef (Var.Param 0)) [] (.lopcode 0) (.sopcode 0)
      8 0 ⟨[.i32], [.i32]⟩ .i32 .i32 [] ).1 rfl).2.1 (by norm_num) (by norm_num)⟩

/-! Claim C2: ordering of the statements emitted for a value-carrying br
and for return. -/

/-- C2 counterexample: in a function of type i32 to i32 with body
local.get 0; i32.const 7; br 0; end, the emitted order is materialization
first (Assign Stack 0 := Param 0), then the carried Assign
(Return 0 := Const 7), then Br — not the claimed Assign-then-materialize
order. -/
theorem C2_counterexample :
    wimplify_function_body brValueOrderFunction emptyModule ≠
      Except.ok [Stmt.Assign (Var.Return 0) .i32 (Expr.Const (Val.I32 7)),
                 Stmt.Assign (Var.Stack 0) .i32 (Expr.VarRef (Var.Param 0)),
                 Stmt.Br 0] :=
  fun h =>
    nomatch (show (Except.ok [Stmt.Assign (Var.Stack 0) .i32 (Expr.VarRef (Var.Param 0)),
        Stmt.Assign (Var.Return 0) .i32 (Expr.Const (Val.I32 7)),
        Stmt.Br 0] : Except Failure (List Stmt)) =
      Except.ok [Stmt.Assign (Var.Return 0) .i32 (Expr.Const (Val.I32 7)),
        Stmt.Assign (Var.Stack 0) .i32 (Expr.VarRef (Var.Param 0)),
        Stmt.Br 0] from h)

/-- C2 amended: when br resolves to a target with a carried result variable
(and likewise return when the function has a return variable), the emitted
order is: the Assign statements from materializing the remaining expression
stack first, then the Assign of the popped value to the carried
result/return variable, then the Br. -/
theorem C2_amended_order (context : Context) (s sm : State) (label : Nat)
    (wimplLabel : Label) (bv rv : Var) (val : Expr) (t : ValType)
    (esRest esm : List (Expr × ValType)) (mats : List Stmt) (ty : FunctionType) :
    (wasm_label_to_wimpl_label_and_block_var s label = Except.ok (wimplLabel, some bv) →
      materialize_all_exprs_as_stmts s esRest = (sm, esm, mats) →
      lower_simple_instr context s ((val, t) :: esRest) (.br label) ty =
        Except.ok (mats ++ [Stmt.Assign bv t val, Stmt.Br wimplLabel], esm, sm)) ∧
    (s.label_stack.getLast? = some (0, false, some rv) →
      materialize_all_exprs_as_stmts s esRest = (sm, esm, mats) →
      lower_simple_instr context s ((val, t) :: esRest) .ret ty =
        Except.ok (mats ++ [Stmt.Assign rv t val, Stmt.Br 0], esm, sm)) := by
  constructor
  · intro hres hmat
    simp only [lower_simple_instr, hres, hmat]
    rfl
  · intro hlast hmat
    simp only [lower_simple_instr, hlast, hmat]
    rfl

/-- C2 amended witness: a concrete br at a state with a dormant parameter
reference on the stack emits the materialization Assign, then the carried
Assign, then the Br. -/
theorem C2_amended_order_witness :
    lower_simple_instr { module := emptyModule, func_ty := ⟨[.i32], [.i32]⟩ }
        { instrs := [], label_count := 1, stack_var_count := 0,
          label_stack := [(0, false, some (Var.Return 0))] }
        [(Expr.Const (Val.I32 7), .i32), (Expr.VarRef (Var.Param 0), .i32)]
        (.br 0) ⟨[.i32], []⟩ =
      Except.ok ([Stmt.Assign (Var.Stack 0) .i32 (Expr.VarRef (Var.Param 0)),
                  Stmt.Assign (Var.Return 0) .i32 (Expr.Const (Val.I32 7)),
                  Stmt.Br 0],
        [(Expr.VarRef (Var.Stack 0), .i32)],
        { instrs := [], label_count := 1, stack_var_count := 1,
          label_stack := [(0, false, some (Var.Return 0))] }) :=
  (C2_amended_order { module := emptyModule, func_ty := ⟨[.i32], [.i32]⟩ }
      { instrs := [], label_count := 1, stack_var_count := 0,
        label_stack := [(0, false, some (Var.Return 0))] }
      { instrs := [], label_count := 1, stack_var_count := 1,
        label_stack := [(0, false, some (Var.Return 0))] }
      0 0 (Var.Return 0) (Var.Return 0) (Expr.Const (Val.I32 7)) .i32
      [(Expr.VarRef (Var.Param 0), .i32)] [(Expr.VarRef (Var.Stack 0), .i32)]
      [Stmt.Assign (Var.Stack 0) .i32 (Expr.VarRef (Var.Param 0))] ⟨[.i32], []⟩).1
    rfl rfl

/-! Claim C5: characterization of materialization. -/

/-- Modelled from the spec wording of materialization (for comparison with
the implementation): fold over the stack in bottom-first Vec order; for
each slot that is not already a stack-variable reference or a constant,
append one Assign of the slot to a fresh Stack temporary and replace the
slot by a reference to that temporary. -/
def materializeSpecStep (acc : Nat × List (Expr × ValType) × List Stmt)
    (slot : Expr × ValType) : Nat × List (Expr × ValType) × List Stmt :=
  if noMaterializeNeeded slot.1 then (acc.1, acc.2.1 ++ [slot], acc.2.2)
  else (acc.1 + 1, acc.2.1 ++ [(Expr.VarRef (Var.Stack acc.1), slot.2)],
        acc.2.2 ++ [Stmt.Assign (Var.Stack acc.1) slot.2 slot.1])

/-- Spec-side materialization of a bottom-first stack. -/
def materializeSpec (count : Nat) (stackBF : List (Expr × ValType)) :
    Nat × List (Expr × ValType) × List Stmt :=
  stackBF.foldl materializeSpecStep (count, [], [])

/-- The implementation worker agrees with the spec-side fold, for any
initial accumulator. -/
theorem foldl_materializeSpecStep (l : List (Expr × ValType)) :
    ∀ (c : Nat) (done : List (Expr × ValType)) (ss : List Stmt),
      l.foldl materializeSpecStep (c, done, ss) =
        ((materializeGo c l).1, done ++ (materializeGo c l).2.1,
          ss ++ (materializeGo c l).2.2) := by
  induction l with
  | nil => intro c done ss; simp [materializeGo]
  | cons hd tl ih =>
    intro c done ss
    obtain ⟨e, t⟩ := hd
    cases hk : noMaterializeNeeded e
    · rcases hgo : materializeGo (c + 1) tl with ⟨c', rest', ss'⟩
      simp [List.foldl_cons, materializeSpecStep, hk, materializeGo, hgo, ih]
    · rcases hgo : materializeGo c tl with ⟨c', rest', ss'⟩
      simp [List.foldl_cons, materializeSpecStep, hk, materializeGo, hgo, ih]

/-- A slot satisfying the peephole test is a stack-variable reference or a
constant. -/
theorem noMaterializeNeeded_spec (e : Expr) (h : noMaterializeNeeded e = true) :
    (∃ n, e = Expr.VarRef (Var.Stack n)) ∨ ∃ v, e = Expr.Const v := by
  cases e with
  | VarRef v =>
    cases v with
    | Stack n => exact Or.inl ⟨n, rfl⟩
    | Param n => simp [noMaterializeNeeded] at h
    | Local n => simp [noMaterializeNeeded] at h
    | Global n => simp [noMaterializeNeeded] at h
    | BlockResult n => simp [noMaterializeNeeded] at h
    | Return n => simp [noMaterializeNeeded] at h
  | Const v => exact Or.inr ⟨v, rfl⟩
  | Unary op a => simp [noMaterializeNeeded] at h
  | Binary op a b => simp [noMaterializeNeeded] at h
  | Load op a => simp [noMaterializeNeeded] at h
  | MemorySize => simp [noMaterializeNeeded] at h
  | MemoryGrow p => simp [noMaterializeNeeded] at h
  | Call f args => simp [noMaterializeNeeded] at h
  | CallIndirect ft t args => simp [noMaterializeNeeded] at h

/-- Every slot of the worker's output stack is a stack-variable reference
or a constant. -/
theorem materializeGo_slots (l : List (Expr × ValType)) :
    ∀ c, ∀ slot ∈ (materializeGo c l).2.1,
      (∃ n, slot.1 = Expr.VarRef (Var.Stack n)) ∨ ∃ v, slot.1 = Expr.Const v := by
  induction l with
  | nil => intro c slot h; simp [materializeGo] at h
  | cons hd tl ih =>
    intro c slot h
    obtain ⟨e, t⟩ := hd
    cases hk : noMaterializeNeeded e
    · rcases hgo : materializeGo (c + 1) tl with ⟨c', rest', ss'⟩
      simp only [materializeGo, hk, Bool.false_eq_true, if_false, hgo, List.mem_cons] at h
      rcases h with h | h
      · subst h; exact Or.inl ⟨c, rfl⟩
      · have := ih (c + 1) slot (by rw [hgo]; exact h)
        exact this
    · rcases hgo : materializeGo c tl with ⟨c', rest', ss'⟩
      simp only [materializeGo, hk, if_true, hgo, List.mem_cons] at h
      rcases h with h | h
      · subst h; exact noMaterializeNeeded_spec e hk
      · exact ih c slot (by rw [hgo]; exact h)

/-- The worker keeps peephole slots untouched, pointwise, and preserves
every slot's type annotation. -/
theorem materializeGo_forall₂ (l : List (Expr × ValType)) :
    ∀ c, List.Forall₂ (fun a b => b.2 = a.2 ∧ (noMaterializeNeeded a.1 = true → b = a))
      l (materializeGo c l).2.1 := by
  induction l with
  | nil => intro c; simp [materializeGo]
  | cons hd tl ih =>
    intro c
    obtain ⟨e, t⟩ := hd
    cases hk : noMaterializeNeeded e
    · rcases hgo : materializeGo (c + 1) tl with ⟨c', rest', ss'⟩
      simp only [materializeGo, hk, Bool.false_eq_true, if_false, hgo]
      refine List.Forall₂.cons ⟨rfl, ?_⟩ (by have := ih (c + 1); rw [hgo] at this; exact this)
      intro habs; rw [habs] at hk; cases hk
    · rcases hgo : materializeGo c tl with ⟨c', rest', ss'⟩
      simp only [materializeGo, hk, if_true, hgo]
      exact List.Forall₂.cons ⟨rfl, fun _ => rfl⟩
        (by have := ih c; rw [hgo] at this; exact this)

/-- The worker emits exactly one Assign per slot that fails the peephole
test and advances the counter by exactly that number. -/
theorem materializeGo_counts (l : List (Expr × ValType)) :
    ∀ c, (materializeGo c l).2.2.length =
        (l.filter fun slot => !noMaterializeNeeded slot.1).length ∧
      (materializeGo c l).1 = c + (materializeGo c l).2.2.length := by
  induction l with
  | nil => intro c; simp [materializeGo]
  | cons hd tl ih =>
    intro c
    obtain ⟨e, t⟩ := hd
    cases hk : noMaterializeNeeded e
    · rcases hgo : materializeGo (c + 1) tl with ⟨c', rest', ss'⟩
      obtain ⟨ih1, ih2⟩ := ih (c + 1)
      rw [hgo] at ih1 ih2
      simp only at ih1 ih2
      constructor
      · simp [materializeGo, hk, hgo, List.filter_cons, ih1]
      · simp [materializeGo, hk, hgo]
        omega
    · rcases hgo : materializeGo c tl with ⟨c', rest', ss'⟩
      obtain ⟨ih1, ih2⟩ := ih c
      rw [hgo] at ih1 ih2
      simp only at ih1 ih2
      constructor
      · simp [materializeGo, hk, hgo, List.filter_cons, ih1]
      · simp [materializeGo, hk, hgo]
        omega

/-- C5: materialization agrees with the spec-side description (the stack
processed in bottom-first Vec order: every slot that is already a
VarRef(Stack) or Const is kept, with no statement; every other slot is
replaced by a reference to a fresh Stack temporary, with exactly one Assign
of the original expression to that temporary, in stack order), every slot
of the resulting stack is a VarRef of a Stack temporary or a Const, types
are preserved pointwise, and the counter advances by exactly the number of
emitted Assigns. -/
theorem C5_materialization (s : State) (es : List (Expr × ValType)) :
    ((materialize_all_exprs_as_stmts s es).1.stack_var_count,
      (materialize_all_exprs_as_stmts s es).2.1.reverse,
      (materialize_all_exprs_as_stmts s es).2.2) =
        materializeSpec s.stack_var_count es.reverse ∧
    (∀ slot ∈ (materialize_all_exprs_as_stmts s es).2.1,
      (∃ n, slot.1 = Expr.VarRef (Var.Stack n)) ∨ ∃ v, slot.1 = Expr.Const v) ∧
    List.Forall₂ (fun a b => b.2 = a.2 ∧ (noMaterializeNeeded a.1 = true → b = a))
      es (materialize_all_exprs_as_stmts s es).2.1 ∧
    (materialize_all_exprs_as_stmts s es).2.2.length =
      (es.filter fun slot => !noMaterializeNeeded slot.1).length ∧
    (materialize_all_exprs_as_stmts s es).1.stack_var_count =
      s.stack_var_count + (materialize_all_exprs_as_stmts s es).2.2.length := by
  rcases hgo : materializeGo s.stack_var_count es.reverse with ⟨c', l', ss⟩
  have hm1 : (materialize_all_exprs_as_stmts s es).1 = { s with stack_var_count := c' } := by
    simp [materialize_all_exprs_as_stmts, hgo]
  have hm2 : (materialize_all_exprs_as_stmts s es).2.1 = l'.reverse := by
    simp [materialize_all_exprs_as_stmts, hgo]
  have hm3 : (materialize_all_exprs_as_stmts s es).2.2 = ss := by
    simp [materialize_all_exprs_as_stmts, hgo]
  refine ⟨?_, ?_, ?_, ?_, ?_⟩
  · rw [hm1, hm2, hm3]
    rw [materializeSpec, foldl_materializeSpecStep, hgo]
    simp
  · intro slot hslot
    rw [hm2, List.mem_reverse] at hslot
    have := materializeGo_slots es.reverse s.stack_var_count slot (by rw [hgo]; exact hslot)
    exact this
  · rw [hm2]
    have h := materializeGo_forall₂ es.reverse s.stack_var_count
    rw [hgo] at h
    have h2 : List.Forall₂ (fun a b => b.2 = a.2 ∧ (noMaterializeNeeded a.1 = true → b = a))
        es.reverse.reverse l'.reverse := List.rel_reverse h
    rw [List.reverse_reverse] at h2
    exact h2
  · rw [hm3]
    have h := (materializeGo_counts es.reverse s.stack_var_count).1
    rw [hgo] at h
    rw [h, List.filter_reverse, List.length_reverse]
  · rw [hm1, hm3]
    have h := (materializeGo_counts es.reverse s.stack_var_count).2
    rw [hgo] at h
    have h2 := (materializeGo_counts es.reverse s.stack_var_count).1
    rw [hgo] at h2
    simpa using h

/-- C5 witness: materializing the two-slot stack with a dormant parameter
reference below a constant keeps the constant, replaces the parameter
reference by Stack 0 and emits exactly its Assign. -/
theorem C5_materialization_witness :
    ((materialize_all_exprs_as_stmts
        { instrs := [], label_count := 1, stack_var_count := 0,
          label_stack := [(0, false, none)] }
        [(Expr.Const (Val.I32 7), .i32), (Expr.VarRef (Var.Param 0), .i32)]).1.stack_var_count,
      (materialize_all_exprs_as_stmts
        { instrs := [], label_count := 1, stack_var_count := 0,
          label_stack := [(0, false, none)] }
        [(Expr.Const (Val.I32 7), .i32), (Expr.VarRef (Var.Param 0), .i32)]).2.1.reverse,
      (materialize_all_exprs_as_stmts
        { instrs := [], label_count := 1, stack_var_count := 0,
          label_stack := [(0, false, none)] }
        [(Expr.Const (Val.I32 7), .i32), (Expr.VarRef (Var.Param 0), .i32)]).2.2) =
      materializeSpec 0 [(Expr.VarRef (Var.Param 0), .i32), (Expr.Const (Val.I32 7), .i32)] ∧
    ((Expr.VarRef (Var.Stack 0), ValType.i32).1 = Expr.VarRef (Var.Stack 0) →
      (∃ n, (Expr.VarRef (Var.Stack 0), ValType.i32).1 = Expr.VarRef (Var.Stack n)) ∨
        ∃ v, (Expr.VarRef (Var.Stack 0), ValType.i32).1 = Expr.Const v) :=
  ⟨(C5_materialization
      { instrs := [], label_count := 1, stack_var_count := 0,
        label_stack := [(0, false, none)] }
      [(Expr.Const (Val.I32 7), .i32), (Expr.VarRef (Var.Param 0), .i32)]).1,
   fun _ =>
    (C5_materialization
      { instrs := [], label_count := 1, stack_var_count := 0,
        label_stack := [(0, false, none)] }
      [(Expr.Const (Val.I32 7), .i32), (Expr.VarRef (Var.Param 0), .i32)]).2.1
      (Expr.VarRef (Var.Stack 0), ValType.i32)
      (by rw [show (materialize_all_exprs_as_stmts
          { instrs := [], label_count := 1, stack_var_count := 0,
            label_stack := [(0, false, none)] }
          [(Expr.Const (Val.I32 7), .i32), (Expr.VarRef (Var.Param 0), .i32)]).2.1 =
          [(Expr.Const (Val.I32 7), .i32), (Expr.VarRef (Var.Stack 0), .i32)] from rfl]
          simp)⟩

/-! Claim C8: infrastructure for reasoning about stack-variable definitions
and reads in the emitted statement trees. -/

mutual

/-- The Stack-variable indices read inside an expression. -/
def exprReads : Expr → List Nat
  | .VarRef (.Stack n) => [n]
  | .VarRef _ => []
  | .Const _ => []
  | .Unary _ a => exprReads a
  | .Binary _ l r => exprReads l ++ exprReads r
  | .Load _ a => exprReads a
  | .MemorySize => []
  | .MemoryGrow p => exprReads p
  | .Call _ args => exprsReads args
  | .CallIndirect _ tIdx args => exprReads tIdx ++ exprsReads args

/-- Stack-variable reads of a list of expressions. -/
def exprsReads : List Expr → List Nat
  | [] => []
  | e :: rest => exprReads e ++ exprsReads rest

end

/-- One event in a statement tree: a definition (an Assign whose left-hand
side is Stack n) or a read (a VarRef of Stack n inside some expression). -/
inductive Event
  | defn (n : Nat)
  | readn (n : Nat)
deriving DecidableEq, Repr

/-- Reads, as events. -/
def readEvents (l : List Nat) : List Event := l.map Event.readn

mutual

/-- The pre-order event sequence of one statement: the Stack-variable reads
of its expressions and the Stack-variable definitions of its Assigns, in
program order (nested bodies inline where they stand). -/
def stmtEvents : Stmt → List Event
  | .Assign (.Stack n) _ rhs => readEvents (exprReads rhs) ++ [Event.defn n]
  | .Assign (.Param _) _ rhs => readEvents (exprReads rhs)
  | .Assign (.Local _) _ rhs => readEvents (exprReads rhs)
  | .Assign (.Global _) _ rhs => readEvents (exprReads rhs)
  | .Assign (.BlockResult _) _ rhs => readEvents (exprReads rhs)
  | .Assign (.Return _) _ rhs => readEvents (exprReads rhs)
  | .Store _ addr value => readEvents (exprReads addr) ++ readEvents (exprReads value)
  | .Expr e => readEvents (exprReads e)
  | .Br _ => []
  | .If c a (some b) => readEvents (exprReads c) ++ stmtsEvents a ++ stmtsEvents b
  | .If c a none => readEvents (exprReads c) ++ stmtsEvents a
  | .Switch i cs d => readEvents (exprReads i) ++ stmtssEvents cs ++ stmtsEvents d
  | .Block b _ => stmtsEvents b
  | .Loop _ b => stmtsEvents b
  | .Unreachable => []

/-- Event sequence of a statement list. -/
def stmtsEvents : List Stmt → List Event
  | [] => []
  | st :: rest => stmtEvents st ++ stmtsEvents rest

/-- Event sequence of a list of bodies (switch cases). -/
def stmtssEvents : List (List Stmt) → List Event
  | [] => []
  | b :: rest => stmtsEvents b ++ stmtssEvents rest

end

/-- The definition events of an event sequence, in order. -/
def eventsDefs (E : List Event) : List Nat :=
  E.filterMap fun ev => match ev with | .defn n => some n | .readn _ => none

/-- The Stack-variable reads of the dormant expression stack. -/
def esReads : List (Expr × ValType) → List Nat
  | [] => []
  | (e, _) :: rest => exprReads e ++ esReads rest

/-- The shape of the definition sequence of a lowered region entered with
counter c and left with counter c': the temporaries are defined in
increasing order starting at c, each exactly once (materialization) or
exactly twice in adjacent positions (the two arms of the If emitted for a
select), and together they cover the interval from c to c' exactly. -/
inductive DefSeq : Nat → Nat → List Nat → Prop
  | nil (c : Nat) : DefSeq c c []
  | single {c c' : Nat} {l : List Nat} : DefSeq (c + 1) c' l → DefSeq c c' (c :: l)
  | double {c c' : Nat} {l : List Nat} : DefSeq (c + 1) c' l → DefSeq c c' (c :: c :: l)

theorem DefSeq.le {c c' : Nat} {l : List Nat} (h : DefSeq c c' l) : c ≤ c' := by
  induction h with
  | nil => exact Nat.le_refl _
  | single _ ih => omega
  | double _ ih => omega

theorem DefSeq.glue {c c₁ c' : Nat} {l₁ l₂ : List Nat}
    (h1 : DefSeq c c₁ l₁) (h2 : DefSeq c₁ c' l₂) : DefSeq c c' (l₁ ++ l₂) := by
  induction h1 with
  | nil => exact h2
  | single _ ih => exact DefSeq.single (ih h2)
  | double _ ih => exact DefSeq.double (ih h2)

theorem DefSeq.mem_bound {c c' : Nat} {l : List Nat} (h : DefSeq c c' l) :
    ∀ n ∈ l, c ≤ n ∧ n < c' := by
  induction h with
  | nil => intro n hn; cases hn
  | single h ih =>
    intro n hn
    rcases List.mem_cons.mp hn with rfl | hn
    · exact ⟨Nat.le_refl _, Nat.lt_of_lt_of_le (Nat.lt_succ_self _) h.le⟩
    · have := ih n hn; omega
  | double h ih =>
    intro n hn
    rcases List.mem_cons.mp hn with rfl | hn
    · exact ⟨Nat.le_refl _, Nat.lt_of_lt_of_le (Nat.lt_succ_self _) h.le⟩
    · rcases List.mem_cons.mp hn with rfl | hn
      · exact ⟨Nat.le_refl _, Nat.lt_of_lt_of_le (Nat.lt_succ_self _) h.le⟩
      · have := ih n hn; omega

theorem DefSeq.mem_iff {c c' : Nat} {l : List Nat} (h : DefSeq c c' l) (n : Nat) :
    n ∈ l ↔ c ≤ n ∧ n < c' := by
  constructor
  · exact h.mem_bound n
  · intro hb
    induction h with
    | nil => omega
    | single h ih =>
      rcases Nat.eq_or_lt_of_le hb.1 with rfl | hlt
      · exact List.mem_cons_self _ _
      · exact List.mem_cons_of_mem _ (ih ⟨hlt, hb.2⟩)
    | double h ih =>
      rcases Nat.eq_or_lt_of_le hb.1 with rfl | hlt
      · exact List.mem_cons_self _ _
      · exact List.mem_cons_of_mem _ (List.mem_cons_of_mem _ (ih ⟨hlt, hb.2⟩))

theorem DefSeq.count_notmem {c c' : Nat} {l : List Nat} (h : DefSeq c c' l) (n : Nat)
    (hn : n < c) : l.count n = 0 :=
  List.count_eq_zero.mpr fun hmem => by have := h.mem_bound n hmem; omega

theorem DefSeq.count_mem {c c' : Nat} {l : List Nat} (h : DefSeq c c' l) :
    ∀ n, c ≤ n → n < c' → l.count n = 1 ∨ l.count n = 2 := by
  induction h with
  | nil => intro n h1 h2; omega
  | @single c c' l h ih =>
    intro n h1 h2
    rcases Nat.eq_or_lt_of_le h1 with rfl | hlt
    · left
      rw [List.count_cons_self, h.count_notmem _ (Nat.lt_succ_self _)]
    · have hne : n ≠ c := by omega
      rw [List.count_cons_of_ne hne]
      exact ih n hlt h2
  | @double c c' l h ih =>
    intro n h1 h2
    rcases Nat.eq_or_lt_of_le h1 with rfl | hlt
    · right
      rw [List.count_cons_self, List.count_cons_self,
        h.count_notmem _ (Nat.lt_succ_self _)]
    · have hne : n ≠ c := by omega
      rw [List.count_cons_of_ne hne, List.count_cons_of_ne hne]
      exact ih n hlt h2

theorem DefSeq.determ {c a b : Nat} {l : List Nat} (h1 : DefSeq c a l)
    (h2 : DefSeq c b l) : a = b := by
  induction h1 generalizing b with
  | nil =>
    cases h2
    rfl
  | @single c a l h ih =>
    cases h2 with
    | single h' => exact ih h'
    | double h' =>
      obtain ⟨hle, _⟩ := h.mem_bound c (List.mem_cons_self _ _)
      omega
  | @double c a l h ih =>
    cases h2 with
    | single h' =>
      obtain ⟨hle, _⟩ := h'.mem_bound c (List.mem_cons_self _ _)
      omega
    | double h' => exact ih h'

/-- No definition of a variable occurs after a read of it. -/
def NoDefAfterRead (E : List Event) : Prop :=
  ∀ i j n, i < j → E.get? i = some (Event.readn n) → E.get? j ≠ some (Event.defn n)

theorem noDefAfterRead_of_bounds {E : List Event} {c : Nat}
    (hr : ∀ n, Event.readn n ∈ E → n < c) (hd : ∀ n, Event.defn n ∈ E → c ≤ n) :
    NoDefAfterRead E := by
  intro i j n _ hi hj
  have h1 := hr n (List.get?_mem hi)
  have h2 := hd n (List.get?_mem hj)
  omega

theorem NoDefAfterRead.glueCross {E₁ E₂ : List Event}
    (h1 : NoDefAfterRead E₁) (h2 : NoDefAfterRead E₂)
    (hcross : ∀ n, Event.readn n ∈ E₁ → Event.defn n ∉ E₂) :
    NoDefAfterRead (E₁ ++ E₂) := by
  intro i j n hij hi hj
  by_cases hi1 : i < E₁.length
  · rw [List.get?_append hi1] at hi
    by_cases hj1 : j < E₁.length
    · rw [List.get?_append hj1] at hj
      exact h1 i j n hij hi hj
    · push_neg at hj1
      rw [List.get?_append_right hj1] at hj
      exact hcross n (List.get?_mem hi) (List.get?_mem hj)
  · push_neg at hi1
    have hj1 : E₁.length ≤ j := Nat.le_trans hi1 (Nat.le_of_lt hij)
    rw [List.get?_append_right hi1] at hi
    rw [List.get?_append_right hj1] at hj
    exact h2 (i - E₁.length) (j - E₁.length) n (by omega) hi hj

/-- The invariant carried through the emitted event sequences: the
definition events form a DefSeq from c to c', every read is of a variable
below c', and no definition follows a read of the same variable. -/
structure EventsOK (c c' : Nat) (E : List Event) : Prop where
  defseq : DefSeq c c' (eventsDefs E)
  reads_lt : ∀ n, Event.readn n ∈ E → n < c'
  ndar : NoDefAfterRead E

theorem eventsDefs_append (E₁ E₂ : List Event) :
    eventsDefs (E₁ ++ E₂) = eventsDefs E₁ ++ eventsDefs E₂ :=
  List.filterMap_append _ _ _

theorem mem_eventsDefs {E : List Event} {n : Nat} :
    n ∈ eventsDefs E ↔ Event.defn n ∈ E := by
  constructor
  · intro h
    rcases List.mem_filterMap.mp h with ⟨ev, hev, hmatch⟩
    cases ev with
    | defn m => cases hmatch; exact hev
    | readn m => cases hmatch
  · intro h
    exact List.mem_filterMap.mpr ⟨Event.defn n, h, rfl⟩

theorem EventsOK.nil {c : Nat} : EventsOK c c [] :=
  ⟨DefSeq.nil c, fun n h => absurd h (List.not_mem_nil _),
   fun i j n _ hi _ => absurd (List.get?_mem hi) (List.not_mem_nil _)⟩

theorem EventsOK.readsOnly {c : Nat} {E : List Event}
    (hd : eventsDefs E = []) (hr : ∀ n, Event.readn n ∈ E → n < c) :
    EventsOK c c E := by
  refine ⟨hd ▸ DefSeq.nil c, hr, ?_⟩
  intro i j n _ _ hj
  have : Event.defn n ∈ E := List.get?_mem hj
  rw [← mem_eventsDefs, hd] at this
  cases this

theorem EventsOK.comp {c c₁ c' : Nat} {E₁ E₂ : List Event}
    (h1 : EventsOK c c₁ E₁) (h2 : EventsOK c₁ c' E₂) :
    EventsOK c c' (E₁ ++ E₂) := by
  have hcc' : c₁ ≤ c' := h2.defseq.le
  refine ⟨?_, ?_, ?_⟩
  · rw [eventsDefs_append]
    exact h1.defseq.glue h2.defseq
  · intro n hn
    rcases List.mem_append.mp hn with hn | hn
    · exact Nat.lt_of_lt_of_le (h1.reads_lt n hn) hcc'
    · exact h2.reads_lt n hn
  · refine h1.ndar.glueCross h2.ndar ?_
    intro n hr hd
    have hlt := h1.reads_lt n hr
    have hge := (h2.defseq.mem_bound n (mem_eventsDefs.mpr hd)).1
    omega

theorem eventsDefs_readEvents (r : List Nat) : eventsDefs (readEvents r) = [] := by
  induction r with
  | nil => rfl
  | cons hd tl ih => simp [readEvents, eventsDefs]

theorem readn_mem_readEvents {r : List Nat} {n : Nat} :
    Event.readn n ∈ readEvents r ↔ n ∈ r := by
  constructor
  · intro h
    rcases List.mem_map.mp h with ⟨m, hm, hEq⟩
    cases hEq
    exact hm
  · intro h
    exact List.mem_map.mpr ⟨n, h, rfl⟩

theorem defn_not_mem_readEvents {r : List Nat} {n : Nat} :
    Event.defn n ∉ readEvents r := by
  intro h
  rcases List.mem_map.mp h with ⟨m, _, hEq⟩
  cases hEq

theorem esReads_append (l₁ l₂ : List (Expr × ValType)) :
    esReads (l₁ ++ l₂) = esReads l₁ ++ esReads l₂ := by
  induction l₁ with
  | nil => rfl
  | cons hd tl ih =>
    obtain ⟨e, t⟩ := hd
    simp [esReads, ih]

theorem mem_esReads_reverse {l : List (Expr × ValType)} {n : Nat} :
    n ∈ esReads l.reverse ↔ n ∈ esReads l := by
  induction l with
  | nil => simp
  | cons hd tl ih =>
    obtain ⟨e, t⟩ := hd
    simp only [List.reverse_cons, esReads_append, esReads, List.mem_append, ih,
      List.append_nil]
    constructor
    · rintro (h | h)
      · exact Or.inr h
      · exact Or.inl h
    · rintro (h | h)
      · exact Or.inr h
      · exact Or.inl h

/-- Event-level characterization of the materialization worker: the counter
only grows, the reads of the emitted Assigns come from the input slots, the
definitions form a single-step DefSeq from the old to the new counter, and
the reads of the output stack are reads of the input stack or freshly
defined temporaries. -/
theorem materializeGo_events (l : List (Expr × ValType)) :
    ∀ c : Nat,
      c ≤ (materializeGo c l).1 ∧
      (∀ n, Event.readn n ∈ stmtsEvents (materializeGo c l).2.2 → n ∈ esReads l) ∧
      DefSeq c (materializeGo c l).1 (eventsDefs (stmtsEvents (materializeGo c l).2.2)) ∧
      (∀ n ∈ esReads (materializeGo c l).2.1,
        n ∈ esReads l ∨ (c ≤ n ∧ n < (materializeGo c l).1)) := by
  induction l with
  | nil =>
    intro c
    refine ⟨Nat.le_refl _, ?_, ?_, ?_⟩
    · intro n h; simp [materializeGo, stmtsEvents] at h
    · simp [materializeGo, stmtsEvents, eventsDefs]
      exact DefSeq.nil c
    · intro n h; simp [materializeGo, esReads] at h
  | cons hd tl ih =>
    intro c
    obtain ⟨e, t⟩ := hd
    cases hk : noMaterializeNeeded e
    · rcases hgo : materializeGo (c + 1) tl with ⟨c', rest', ss'⟩
      obtain ⟨ih1, ih2, ih3, ih4⟩ := ih (c + 1)
      rw [hgo] at ih1 ih2 ih3 ih4
      simp only at ih1 ih2 ih3 ih4
      have hred : materializeGo c ((e, t) :: tl) =
          (c', (Expr.VarRef (Var.Stack c), t) :: rest', Stmt.Assign (Var.Stack c) t e :: ss') := by
        simp [materializeGo, hk, hgo]
      rw [hred]
      refine ⟨by omega, ?_, ?_, ?_⟩
      · intro n hn
        simp only [stmtsEvents, stmtEvents, List.append_assoc, List.mem_append,
          List.mem_singleton] at hn
        rcases hn with hn | hn | hn
        · have := readn_mem_readEvents.mp hn
          simp [esReads, this]
        · cases hn
        · have := ih2 n hn
          simp [esReads, this]
      · simp only [stmtsEvents, stmtEvents, eventsDefs_append, eventsDefs_readEvents,
          List.append_assoc, List.nil_append]
        have : eventsDefs [Event.defn c] = [c] := rfl
        rw [this]
        exact DefSeq.single ih3
      · intro n hn
        simp only [esReads, exprReads, List.mem_append, List.mem_singleton] at hn
        rcases hn with rfl | hn
        · right
          exact ⟨Nat.le_refl _, by omega⟩
        · rcases ih4 n hn with h | h
          · left; simp [esReads, h]
          · right; omega
    · rcases hgo : materializeGo c tl with ⟨c', rest', ss'⟩
      obtain ⟨ih1, ih2, ih3, ih4⟩ := ih c
      rw [hgo] at ih1 ih2 ih3 ih4
      simp only at ih1 ih2 ih3 ih4
      have hred : materializeGo c ((e, t) :: tl) = (c', (e, t) :: rest', ss') := by
        simp [materializeGo, hk, hgo]
      rw [hred]
      refine ⟨ih1, ?_, ih3, ?_⟩
      · intro n hn
        have := ih2 n hn
        simp [esReads, this]
      · intro n hn
        simp only [esReads, List.mem_append] at hn
        rcases hn with hn | hn
        · left; simp [esReads, hn]
        · rcases ih4 n hn with h | h
          · left; simp [esReads, h]
          · right; exact h

/-- EventsOK for a materialization step, together with the read bound for
the materialized stack. -/
theorem materialize_eventsOK (s : State) (es : List (Expr × ValType))
    (hes : ∀ n ∈ esReads es, n < s.stack_var_count) :
    s.stack_var_count ≤ (materialize_all_exprs_as_stmts s es).1.stack_var_count ∧
    EventsOK s.stack_var_count (materialize_all_exprs_as_stmts s es).1.stack_var_count
      (stmtsEvents (materialize_all_exprs_as_stmts s es).2.2) ∧
    (∀ n ∈ esReads (materialize_all_exprs_as_stmts s es).2.1,
      n < (materialize_all_exprs_as_stmts s es).1.stack_var_count) := by
  rcases hgo : materializeGo s.stack_var_count es.reverse with ⟨c', l', ss⟩
  obtain ⟨h1, h2, h3, h4⟩ := materializeGo_events es.reverse s.stack_var_count
  rw [hgo] at h1 h2 h3 h4
  simp only at h1 h2 h3 h4
  have hm1 : (materialize_all_exprs_as_stmts s es).1 = { s with stack_var_count := c' } := by
    simp [materialize_all_exprs_as_stmts, hgo]
  have hm2 : (materialize_all_exprs_as_stmts s es).2.1 = l'.reverse := by
    simp [materialize_all_exprs_as_stmts, hgo]
  have hm3 : (materialize_all_exprs_as_stmts s es).2.2 = ss := by
    simp [materialize_all_exprs_as_stmts, hgo]
  rw [hm1, hm2, hm3]
  have hreads : ∀ n, Event.readn n ∈ stmtsEvents ss → n < s.stack_var_count := by
    intro n hn
    exact hes n (mem_esReads_reverse.mp (h2 n hn))
  refine ⟨h1, ⟨h3, ?_, ?_⟩, ?_⟩
  · intro n hn
    exact Nat.lt_of_lt_of_le (hreads n hn) h1
  · refine noDefAfterRead_of_bounds hreads ?_
    intro n hn
    exact (h3.mem_bound n (mem_eventsDefs.mpr hn)).1
  · intro n hn
    rw [mem_esReads_reverse] at hn
    rcases h4 n hn with h | h
    · exact Nat.lt_of_lt_of_le (hes n (mem_esReads_reverse.mp h)) h1
    · exact h.2

theorem stmtsEvents_append (l₁ l₂ : List Stmt) :
    stmtsEvents (l₁ ++ l₂) = stmtsEvents l₁ ++ stmtsEvents l₂ := by
  induction l₁ with
  | nil => rfl
  | cons hd tl ih => simp [stmtsEvents, ih]

/-- Materialization only changes the stack-variable counter of the state. -/
theorem materialize_state_fields (s : State) (es : List (Expr × ValType)) :
    (materialize_all_exprs_as_stmts s es).1.instrs = s.instrs ∧
    (materialize_all_exprs_as_stmts s es).1.label_stack = s.label_stack ∧
    (materialize_all_exprs_as_stmts s es).1.label_count = s.label_count :=
  ⟨rfl, rfl, rfl⟩

/-- The events of an Assign whose left-hand side is not a Stack variable
are pure reads. -/
theorem stmtEvents_assign_not_stack {v : Var} (hv : ∀ n, v ≠ Var.Stack n)
    (t : ValType) (rhs : Expr) :
    stmtEvents (Stmt.Assign v t rhs) = readEvents (exprReads rhs) := by
  cases v with
  | Stack n => exact absurd rfl (hv n)
  | Param n => rfl
  | Local n => rfl
  | Global n => rfl
  | BlockResult n => rfl
  | Return n => rfl

/-- Under the invariant that no label-stack frame carries a Stack variable,
a successful branch-target resolution never returns a Stack variable. -/
theorem resolve_block_var_not_stack {s : State}
    (hls : ∀ fr ∈ s.label_stack, ∀ n, fr.2.2 ≠ some (Var.Stack n))
    {d : Nat} {wl : Label} {bv : Var}
    (h : wasm_label_to_wimpl_label_and_block_var s d = .ok (wl, some bv)) :
    ∀ n, bv ≠ Var.Stack n := by
  unfold wasm_label_to_wimpl_label_and_block_var at h
  cases hget : s.label_stack.get? d with
  | none => rw [hget] at h; cases h
  | some fr =>
    rw [hget] at h
    obtain ⟨l, il, obv⟩ := fr
    have hmem := List.get?_mem hget
    cases il with
    | false =>
      cases obv with
      | none => simp at h
      | some v =>
        simp only [Except.ok.injEq, Prod.mk.injEq, Option.some.injEq] at h
        obtain ⟨-, h2⟩ := h
        subst h2
        intro n hn
        exact hls _ hmem n (by rw [hn])
    | true =>
      cases obv with
      | none => simp at h
      | some v => simp at h

/-- A bind in the Except monad succeeds exactly when both stages do. -/
theorem except_bind_ok {α β : Type} {x : Except Failure α} {f : α → Except Failure β}
    {r : β} : (x >>= f) = .ok r ↔ ∃ a, x = .ok a ∧ f a = .ok r := by
  cases x with
  | error e =>
    constructor
    · intro h; cases h
    · rintro ⟨a, ha, _⟩; cases ha
  | ok a =>
    constructor
    · intro h; exact ⟨a, rfl, h⟩
    · rintro ⟨a', ha, hf⟩
      cases ha
      exact hf

theorem mapMExcept_ok_forall {alpha beta : Type} {f : alpha → Except Failure beta}
    {l : List alpha} {out : List beta} (h : mapMExcept f l = .ok out) :
    ∀ b ∈ out, ∃ a, f a = .ok b := by
  induction l generalizing out with
  | nil =>
    simp only [mapMExcept, Except.ok.injEq] at h
    subst h
    intro b hb
    cases hb
  | cons a rest ih =>
    simp only [mapMExcept] at h
    rw [except_bind_ok] at h
    obtain ⟨b0, hb0, h⟩ := h
    rw [except_bind_ok] at h
    obtain ⟨bs, hbs, h⟩ := h
    simp only [Except.ok.injEq] at h
    subst h
    intro b hb
    rcases List.mem_cons.mp hb with rfl | hb
    · exact ⟨a, hb0⟩
    · exact ih hbs b hb

theorem mem_exprsReads_map_fst {l : List (Expr × ValType)} {n : Nat} :
    n ∈ exprsReads (l.map Prod.fst) ↔ n ∈ esReads l := by
  induction l with
  | nil => simp [exprsReads, esReads]
  | cons hd tl ih =>
    obtain ⟨e, t⟩ := hd
    simp [exprsReads, esReads, ih]

theorem mem_esReads_take {l : List (Expr × ValType)} {k n : Nat}
    (h : n ∈ esReads (l.take k)) : n ∈ esReads l := by
  have : l = l.take k ++ l.drop k := (List.take_append_drop k l).symm
  rw [this, esReads_append, List.mem_append]
  exact Or.inl h

theorem mem_esReads_drop {l : List (Expr × ValType)} {k n : Nat}
    (h : n ∈ esReads (l.drop k)) : n ∈ esReads l := by
  have : l = l.take k ++ l.drop k := (List.take_append_drop k l).symm
  rw [this, esReads_append, List.mem_append]
  exact Or.inr h

/-- Reads of the argument lists built for call and call_indirect come from
the consumed stack slots. -/
theorem mem_exprsReads_args {es : List (Expr × ValType)} {k n : Nat}
    (h : n ∈ exprsReads ((es.take k).reverse.map Prod.fst)) : n ∈ esReads es := by
  rw [mem_exprsReads_map_fst, mem_esReads_reverse] at h
  exact mem_esReads_take h

/-- The workhorse for the simple arms that first materialize and then emit
statements containing no Stack-variable definitions: the combined events
are well-formed, and the new stack's reads stay below the new counter. -/
theorem eventsOK_mats_readsOnly (s : State) (esBase : List (Expr × ValType))
    {sm : State} {esm : List (Expr × ValType)} {mats : List Stmt}
    (hm : materialize_all_exprs_as_stmts s esBase = (sm, esm, mats))
    (hesB : ∀ n ∈ esReads esBase, n < s.stack_var_count)
    (extra : List Stmt)
    (hdefs : eventsDefs (stmtsEvents extra) = [])
    (hreads : ∀ n, Event.readn n ∈ stmtsEvents extra →
      n < s.stack_var_count ∨ n ∈ esReads esm) :
    s.stack_var_count ≤ sm.stack_var_count ∧
    sm.label_stack = s.label_stack ∧
    EventsOK s.stack_var_count sm.stack_var_count (stmtsEvents (mats ++ extra)) ∧
    (∀ n ∈ esReads esm, n < sm.stack_var_count) := by
  obtain ⟨hmono, hok, hstk⟩ := materialize_eventsOK s esBase hesB
  obtain ⟨-, hlsm, -⟩ := materialize_state_fields s esBase
  rw [hm] at hmono hok hstk hlsm
  simp only at hmono hok hstk hlsm
  refine ⟨hmono, hlsm, ?_, hstk⟩
  rw [stmtsEvents_append]
  refine hok.comp (EventsOK.readsOnly hdefs ?_)
  intro n hn
  rcases hreads n hn with h | h
  · omega
  · exact hstk n h

/-- One br_table case body contains no Stack-variable definitions (no
label-stack frame carries a Stack variable) and reads only from the
already-materialized stack. -/
theorem br_with_maybe_assign_events {s : State} {es : List (Expr × ValType)}
    {l : Nat} {ss : List Stmt}
    (hls : ∀ fr ∈ s.label_stack, ∀ n, fr.2.2 ≠ some (Var.Stack n))
    (h : br_with_maybe_assign s es l = .ok ss) :
    eventsDefs (stmtsEvents ss) = [] ∧
    (∀ n, Event.readn n ∈ stmtsEvents ss → n ∈ esReads es) := by
  unfold br_with_maybe_assign at h
  rw [except_bind_ok] at h
  obtain ⟨⟨wl, obv⟩, hres, h⟩ := h
  cases obv with
  | some bv =>
    cases es with
    | nil => simp only at h; cases h
    | cons slot esRest =>
      obtain ⟨top, t⟩ := slot
      simp only [Except.ok.injEq] at h
      subst h
      have hbv := resolve_block_var_not_stack hls hres
      have hev : stmtsEvents [Stmt.Assign bv t top, Stmt.Br wl] =
          readEvents (exprReads top) := by
        show stmtEvents (Stmt.Assign bv t top) ++ (stmtEvents (Stmt.Br wl) ++ stmtsEvents []) =
          readEvents (exprReads top)
        rw [stmtEvents_assign_not_stack hbv]
        simp [stmtEvents, stmtsEvents]
      constructor
      · rw [hev, eventsDefs_readEvents]
      · intro n hn
        rw [hev] at hn
        have := readn_mem_readEvents.mp hn
        simp [esReads, this]
  | none =>
    simp only [Except.ok.injEq] at h
    subst h
    constructor
    · rfl
    · intro n hn
      simp [stmtsEvents, stmtEvents] at hn

/-- Event facts for a list of br_table case bodies. -/
theorem stmtssEvents_facts {R : List Nat} {cs : List (List Stmt)}
    (h : ∀ body ∈ cs, eventsDefs (stmtsEvents body) = [] ∧
      ∀ n, Event.readn n ∈ stmtsEvents body → n ∈ R) :
    eventsDefs (stmtssEvents cs) = [] ∧
    (∀ n, Event.readn n ∈ stmtssEvents cs → n ∈ R) := by
  induction cs with
  | nil => exact ⟨rfl, fun n hn => absurd hn (List.not_mem_nil _)⟩
  | cons b rest ih =>
    have hb := h b (List.mem_cons_self _ _)
    have hrest : ∀ body ∈ rest, eventsDefs (stmtsEvents body) = [] ∧
        ∀ n, Event.readn n ∈ stmtsEvents body → n ∈ R :=
      fun body hm => h body (List.mem_cons_of_mem _ hm)
    obtain ⟨ih1, ih2⟩ := ih hrest
    constructor
    · show eventsDefs (stmtsEvents b ++ stmtssEvents rest) = []
      rw [eventsDefs_append, hb.1, ih1]
      rfl
    · intro n hn
      rcases List.mem_append.mp hn with hn | hn
      · exact hb.2 n hn
      · exact ih2 n hn

theorem eventsDefs_expr_stmt (e : Expr) : eventsDefs (stmtsEvents [Stmt.Expr e]) = [] := by
  show eventsDefs (readEvents (exprReads e) ++ stmtsEvents []) = []
  rw [eventsDefs_append, eventsDefs_readEvents]
  rfl

/-- Event well-formedness of every simple (non-control) instruction arm:
the counter only grows, the label stack is untouched, the emitted events
form an EventsOK segment, and the reads of the new expression stack stay
below the new counter. -/
theorem lower_simple_instr_events (context : Context) (s : State)
    (es : List (Expr × ValType)) (instr : Instr) (ty : FunctionType)
    (ss : List Stmt) (esOut : List (Expr × ValType)) (s' : State)
    (h : lower_simple_instr context s es instr ty = .ok (ss, esOut, s'))
    (hes : ∀ n ∈ esReads es, n < s.stack_var_count)
    (hls : ∀ fr ∈ s.label_stack, ∀ n, fr.2.2 ≠ some (Var.Stack n)) :
    s.stack_var_count ≤ s'.stack_var_count ∧
    s'.label_stack = s.label_stack ∧
    EventsOK s.stack_var_count s'.stack_var_count (stmtsEvents ss) ∧
    (∀ n ∈ esReads esOut, n < s'.stack_var_count) := by
  cases instr with
  | block bt => simp only [lower_simple_instr] at h; nomatch h
  | loop bt => simp only [lower_simple_instr] at h; nomatch h
  | if_ bt => simp only [lower_simple_instr] at h; nomatch h
  | else_ => simp only [lower_simple_instr] at h; nomatch h
  | end_ => simp only [lower_simple_instr] at h; nomatch h
  | nop =>
    simp only [lower_simple_instr, Except.ok.injEq, Prod.mk.injEq] at h
    obtain ⟨hss, hse, hst⟩ := h
    subst hss; subst hse; subst hst
    exact ⟨Nat.le_refl _, rfl, EventsOK.nil, hes⟩
  | unreachable =>
    rcases hm : materialize_all_exprs_as_stmts s es with ⟨sm, esm, mats⟩
    simp only [lower_simple_instr, hm, Except.ok.injEq, Prod.mk.injEq] at h
    obtain ⟨hss, hse, hst⟩ := h
    subst hss; subst hse; subst hst
    exact eventsOK_mats_readsOnly s es hm hes [Stmt.Unreachable] rfl
      (fun n hn => absurd hn (by simp [stmtsEvents, stmtEvents]))
  | ret =>
    simp only [lower_simple_instr] at h
    cases hlast : s.label_stack.getLast? with
    | none => simp [hlast] at h
    | some fr =>
      obtain ⟨wl, il, rv⟩ := fr
      simp only [hlast] at h
      split at h
      · nomatch h
      · split at h
        · nomatch h
        · cases rv with
          | some rv0 =>
            cases es with
            | nil => simp at h
            | cons slot esRest =>
              obtain ⟨val, tv⟩ := slot
              rcases hm : materialize_all_exprs_as_stmts s esRest with ⟨sm, esm, mats⟩
              simp only [hm, Except.ok.injEq, Prod.mk.injEq] at h
              obtain ⟨hss, hse, hst⟩ := h
              subst hss; subst hse; subst hst
              have hmem : (wl, il, some rv0) ∈ s.label_stack :=
                List.mem_of_mem_getLast? hlast
              have hrv : ∀ n, rv0 ≠ Var.Stack n := fun n hn => hls _ hmem n (by rw [hn])
              have hesR : ∀ n ∈ esReads esRest, n < s.stack_var_count := fun n hn =>
                hes n (by simp only [esReads, List.mem_append]; exact Or.inr hn)
              have hev : stmtsEvents [Stmt.Assign rv0 tv val, Stmt.Br wl] =
                  readEvents (exprReads val) := by
                show stmtEvents (Stmt.Assign rv0 tv val) ++
                    (stmtEvents (Stmt.Br wl) ++ stmtsEvents []) = readEvents (exprReads val)
                rw [stmtEvents_assign_not_stack hrv]
                simp [stmtEvents, stmtsEvents]
              refine eventsOK_mats_readsOnly s esRest hm hesR _
                (by rw [hev, eventsDefs_readEvents]) ?_
              intro n hn
              rw [hev] at hn
              exact Or.inl (hes n (by
                simp only [esReads, List.mem_append]
                exact Or.inl (readn_mem_readEvents.mp hn)))
          | none =>
            rcases hm : materialize_all_exprs_as_stmts s es with ⟨sm, esm, mats⟩
            simp only [hm, Except.ok.injEq, Prod.mk.injEq] at h
            obtain ⟨hss, hse, hst⟩ := h
            subst hss; subst hse; subst hst
            exact eventsOK_mats_readsOnly s es hm hes [Stmt.Br wl] rfl
              (fun n hn => absurd hn (by simp [stmtsEvents, stmtEvents]))
  | br label =>
    simp only [lower_simple_instr] at h
    rw [except_bind_ok] at h
    obtain ⟨⟨wl, obv⟩, hres, h⟩ := h
    cases obv with
    | some bv =>
      cases es with
      | nil => simp at h
      | cons slot esRest =>
        obtain ⟨val, tv⟩ := slot
        simp only at h
        rcases hm : materialize_all_exprs_as_stmts s esRest with ⟨sm, esm, mats⟩
        simp only [hm, Except.ok.injEq, Prod.mk.injEq] at h
        obtain ⟨hss, hse, hst⟩ := h
        subst hss; subst hse; subst hst
        have hbv := resolve_block_var_not_stack hls hres
        have hesR : ∀ n ∈ esReads esRest, n < s.stack_var_count := fun n hn =>
          hes n (by simp only [esReads, List.mem_append]; exact Or.inr hn)
        have hev : stmtsEvents [Stmt.Assign bv tv val, Stmt.Br wl] =
            readEvents (exprReads val) := by
          show stmtEvents (Stmt.Assign bv tv val) ++
              (stmtEvents (Stmt.Br wl) ++ stmtsEvents []) = readEvents (exprReads val)
          rw [stmtEvents_assign_not_stack hbv]
          simp [stmtEvents, stmtsEvents]
        refine eventsOK_mats_readsOnly s esRest hm hesR _
          (by rw [hev, eventsDefs_readEvents]) ?_
        intro n hn
        rw [hev] at hn
        exact Or.inl (hes n (by
          simp only [esReads, List.mem_append]
          exact Or.inl (readn_mem_readEvents.mp hn)))
    | none =>
      simp only at h
      rcases hm : materialize_all_exprs_as_stmts s es with ⟨sm, esm, mats⟩
      simp only [hm, Except.ok.injEq, Prod.mk.injEq] at h
      obtain ⟨hss, hse, hst⟩ := h
      subst hss; subst hse; subst hst
      exact eventsOK_mats_readsOnly s es hm hes [Stmt.Br wl] rfl
        (fun n hn => absurd hn (by simp [stmtsEvents, stmtEvents]))
  | brIf label =>
    simp only [lower_simple_instr] at h
    cases es with
    | nil => simp at h
    | cons slot esRest =>
      obtain ⟨cond, ct⟩ := slot
      simp only at h
      split at h
      · nomatch h
      · rw [except_bind_ok] at h
        obtain ⟨⟨wl, obv⟩, hres, h⟩ := h
        simp only at h
        rcases hm : materialize_all_exprs_as_stmts s esRest with ⟨sm, esm, mats⟩
        simp only [hm] at h
        have hesR : ∀ n ∈ esReads esRest, n < s.stack_var_count := fun n hn =>
          hes n (by simp only [esReads, List.mem_append]; exact Or.inr hn)
        have hcond : ∀ n, n ∈ exprReads cond → n < s.stack_var_count := fun n hn =>
          hes n (by simp only [esReads, List.mem_append]; exact Or.inl hn)
        cases obv with
        | some bv =>
          cases hesm : esm with
          | nil => rw [hesm] at h; simp at h
          | cons slot2 esmRest =>
            obtain ⟨bvv, tb⟩ := slot2
            rw [hesm] at h
            simp only [Except.ok.injEq, Prod.mk.injEq] at h
            obtain ⟨hss, hse, hst⟩ := h
            subst hss; subst hst
            have hbv := resolve_block_var_not_stack hls hres
            have hev : stmtsEvents
                [Stmt.If cond [Stmt.Assign bv tb bvv, Stmt.Br wl] none] =
                readEvents (exprReads cond) ++ readEvents (exprReads bvv) := by
              show readEvents (exprReads cond) ++
                  (stmtEvents (Stmt.Assign bv tb bvv) ++
                    (stmtEvents (Stmt.Br wl) ++ stmtsEvents [])) ++ stmtsEvents [] = _
              rw [stmtEvents_assign_not_stack hbv]
              simp [stmtEvents, stmtsEvents]
            have hout := eventsOK_mats_readsOnly s esRest hm hesR _
              (by rw [hev, eventsDefs_append, eventsDefs_readEvents, eventsDefs_readEvents]; rfl)
              (fun n hn => by
                rw [hev] at hn
                rcases List.mem_append.mp hn with hn | hn
                · exact Or.inl (hcond n (readn_mem_readEvents.mp hn))
                · refine Or.inr ?_
                  rw [hesm]
                  simp only [esReads, List.mem_append]
                  exact Or.inl (readn_mem_readEvents.mp hn))
            obtain ⟨h1, h2, h3, h4⟩ := hout
            subst hse
            rw [hesm] at h4
            exact ⟨h1, h2, h3, h4⟩
        | none =>
          simp only [Except.ok.injEq, Prod.mk.injEq] at h
          obtain ⟨hss, hse, hst⟩ := h
          subst hss; subst hse; subst hst
          have hev : stmtsEvents [Stmt.If cond [Stmt.Br wl] none] =
              readEvents (exprReads cond) := by
            show readEvents (exprReads cond) ++
                (stmtEvents (Stmt.Br wl) ++ stmtsEvents []) ++ stmtsEvents [] = _
            simp [stmtEvents, stmtsEvents]
          exact eventsOK_mats_readsOnly s esRest hm hesR _
            (by rw [hev, eventsDefs_readEvents])
            (fun n hn => by
              rw [hev] at hn
              exact Or.inl (hcond n (readn_mem_readEvents.mp hn)))
  | brTable table defaultLabel =>
    simp only [lower_simple_instr] at h
    cases es with
    | nil => simp at h
    | cons slot esRest =>
      obtain ⟨idxE, it⟩ := slot
      simp only at h
      split at h
      · nomatch h
      · rcases hm : materialize_all_exprs_as_stmts s esRest with ⟨sm, esm, mats⟩
        simp only [hm] at h
        rw [except_bind_ok] at h
        obtain ⟨cs, hcs, h⟩ := h
        rw [except_bind_ok] at h
        obtain ⟨db, hdb, h⟩ := h
        simp only [Except.ok.injEq, Prod.mk.injEq] at h
        obtain ⟨hss, hse, hst⟩ := h
        subst hss; subst hse; subst hst
        have hesR : ∀ n ∈ esReads esRest, n < s.stack_var_count := fun n hn =>
          hes n (by simp only [esReads, List.mem_append]; exact Or.inr hn)
        have hlsm : sm.label_stack = s.label_stack := by
          have := (materialize_state_fields s esRest).2.1
          rw [hm] at this
          exact this
        have hlss : ∀ fr ∈ sm.label_stack, ∀ n, fr.2.2 ≠ some (Var.Stack n) := by
          rw [hlsm]; exact hls
        have hcases : ∀ body ∈ cs, eventsDefs (stmtsEvents body) = [] ∧
            ∀ n, Event.readn n ∈ stmtsEvents body → n ∈ esReads esm := by
          intro body hb
          obtain ⟨l0, hl0⟩ := mapMExcept_ok_forall hcs body hb
          exact br_with_maybe_assign_events hlss hl0
        obtain ⟨hcs1, hcs2⟩ := stmtssEvents_facts hcases
        obtain ⟨hdb1, hdb2⟩ := br_with_maybe_assign_events hlss hdb
        have hev : stmtsEvents [Stmt.Switch idxE cs db] =
            readEvents (exprReads idxE) ++ (stmtssEvents cs ++ stmtsEvents db) := by
          simp [stmtsEvents, stmtEvents]
        refine eventsOK_mats_readsOnly s esRest hm hesR _
          (by rw [hev, eventsDefs_append, eventsDefs_readEvents, eventsDefs_append,
                hcs1, hdb1]; rfl) ?_
        intro n hn
        rw [hev] at hn
        rcases List.mem_append.mp hn with hn | hn
        · exact Or.inl (hes n (by
            simp only [esReads, List.mem_append]
            exact Or.inl (readn_mem_readEvents.mp hn)))
        · rcases List.mem_append.mp hn with hn | hn
          · exact Or.inr (hcs2 n hn)
          · exact Or.inr (hdb2 n hn)
  | call funcIdx =>
    simp only [lower_simple_instr] at h
    cases hgf : context.module.functions.get? funcIdx with
    | none =>
      simp only [hgf] at h
      nomatch h
    | some f =>
      simp only [hgf] at h
      split at h
      · nomatch h
      · cases hr : ty.results with
        | nil =>
          simp only [hr] at h
          rcases hm : materialize_all_exprs_as_stmts s (es.drop f.type_.inputs.length)
            with ⟨sm, esm, mats⟩
          simp only [hm, Except.ok.injEq, Prod.mk.injEq] at h
          obtain ⟨hss, hse, hst⟩ := h
          subst hss; subst hse; subst hst
          have hesD : ∀ n ∈ esReads (es.drop f.type_.inputs.length),
              n < s.stack_var_count := fun n hn => hes n (mem_esReads_drop hn)
          refine eventsOK_mats_readsOnly s _ hm hesD _ (eventsDefs_expr_stmt _) ?_
          intro n hn
          have hn' : n ∈ exprsReads ((es.take f.type_.inputs.length).reverse.map Prod.fst) := by
            simpa [stmtsEvents, stmtEvents, exprReads, readn_mem_readEvents] using hn
          exact Or.inl (hes n (mem_exprsReads_args hn'))
        | cons t tr =>
          cases tr with
          | nil =>
            simp only [hr, Except.ok.injEq, Prod.mk.injEq] at h
            obtain ⟨hss, hse, hst⟩ := h
            subst hss; subst hse; subst hst
            refine ⟨Nat.le_refl _, rfl, EventsOK.nil, ?_⟩
            intro n hn
            simp only [esReads, exprReads, List.mem_append] at hn
            rcases hn with hn | hn
            · exact hes n (mem_exprsReads_args hn)
            · exact hes n (mem_esReads_drop hn)
          | cons => simp only [hr] at h; nomatch h
  | callIndirect ft tIdx =>
    simp only [lower_simple_instr] at h
    split at h
    · nomatch h
    · cases es with
      | nil => simp at h
      | cons slot esRest =>
        obtain ⟨tie, tit⟩ := slot
        simp only at h
        split at h
        · nomatch h
        · split at h
          · nomatch h
          · cases hr : ty.results with
            | nil =>
              simp only [hr] at h
              rcases hm : materialize_all_exprs_as_stmts s (esRest.drop ft.inputs.length)
                with ⟨sm, esm, mats⟩
              simp only [hm, Except.ok.injEq, Prod.mk.injEq] at h
              obtain ⟨hss, hse, hst⟩ := h
              subst hss; subst hse; subst hst
              have hesD : ∀ n ∈ esReads (esRest.drop ft.inputs.length),
                  n < s.stack_var_count := fun n hn =>
                hes n (by
                  simp only [esReads, List.mem_append]
                  exact Or.inr (mem_esReads_drop hn))
              refine eventsOK_mats_readsOnly s _ hm hesD _ (eventsDefs_expr_stmt _) ?_
              intro n hn
              have hn' : n ∈ exprReads tie ++
                  exprsReads ((esRest.take ft.inputs.length).reverse.map Prod.fst) := by
                simpa [stmtsEvents, stmtEvents, exprReads, readn_mem_readEvents] using hn
              rcases List.mem_append.mp hn' with hn' | hn'
              · exact Or.inl (hes n (by
                  simp only [esReads, List.mem_append]; exact Or.inl hn'))
              · exact Or.inl (hes n (by
                  simp only [esReads, List.mem_append]
                  exact Or.inr (mem_exprsReads_args hn')))
            | cons t tr =>
              cases tr with
              | nil =>
                simp only [hr, Except.ok.injEq, Prod.mk.injEq] at h
                obtain ⟨hss, hse, hst⟩ := h
                subst hss; subst hse; subst hst
                refine ⟨Nat.le_refl _, rfl, EventsOK.nil, ?_⟩
                intro n hn
                simp only [esReads, exprReads, List.mem_append] at hn
                rcases hn with (hn | hn) | hn
                · exact hes n (by
                    simp only [esReads, List.mem_append]; exact Or.inl hn)
                · exact hes n (by
                    simp only [esReads, List.mem_append]
                    exact Or.inr (mem_exprsReads_args hn))
                · exact hes n (by
                    simp only [esReads, List.mem_append]
                    exact Or.inr (mem_esReads_drop hn))
              | cons => simp only [hr] at h; nomatch h
  | drop =>
    simp only [lower_simple_instr] at h
    cases es with
    | nil => simp at h
    | cons slot esRest =>
      obtain ⟨e, t⟩ := slot
      simp only at h
      have hesR : ∀ n ∈ esReads esRest, n < s.stack_var_count := fun n hn =>
        hes n (by simp only [esReads, List.mem_append]; exact Or.inr hn)
      cases e with
      | VarRef v =>
        simp only [Except.ok.injEq, Prod.mk.injEq] at h
        obtain ⟨hss, hse, hst⟩ := h
        subst hss; subst hse; subst hst
        exact ⟨Nat.le_refl _, rfl, EventsOK.nil, hesR⟩
      | Const v =>
        simp only [Except.ok.injEq, Prod.mk.injEq] at h
        obtain ⟨hss, hse, hst⟩ := h
        subst hss; subst hse; subst hst
        exact ⟨Nat.le_refl _, rfl, EventsOK.nil, hesR⟩
      | Unary op a =>
        rcases hm : materialize_all_exprs_as_stmts s esRest with ⟨sm, esm, mats⟩
        simp only [hm, Except.ok.injEq, Prod.mk.injEq] at h
        obtain ⟨hss, hse, hst⟩ := h
        subst hss; subst hse; subst hst
        refine eventsOK_mats_readsOnly s esRest hm hesR _ (eventsDefs_expr_stmt _) ?_
        intro n hn
        have hn' : Event.readn n ∈ readEvents (exprReads (Expr.Unary op a)) := by
          simpa [stmtsEvents, stmtEvents] using hn
        exact Or.inl (hes n (by
          simp only [esReads, List.mem_append]
          exact Or.inl (readn_mem_readEvents.mp hn')))
      | Binary op a b =>
        rcases hm : materialize_all_exprs_as_stmts s esRest with ⟨sm, esm, mats⟩
        simp only [hm, Except.ok.injEq, Prod.mk.injEq] at h
        obtain ⟨hss, hse, hst⟩ := h
        subst hss; subst hse; subst hst
        refine eventsOK_mats_readsOnly s esRest hm hesR _ (eventsDefs_expr_stmt _) ?_
        intro n hn
        have hn' : Event.readn n ∈ readEvents (exprReads (Expr.Binary op a b)) := by
          simpa [stmtsEvents, stmtEvents] using hn
        exact Or.inl (hes n (by
          simp only [esReads, List.mem_append]
          exact Or.inl (readn_mem_readEvents.mp hn')))
      | Load op a =>
        rcases hm : materialize_all_exprs_as_stmts s esRest with ⟨sm, esm, mats⟩
        simp only [hm, Except.ok.injEq, Prod.mk.injEq] at h
        obtain ⟨hss, hse, hst⟩ := h
        subst hss; subst hse; subst hst
        refine eventsOK_mats_readsOnly s esRest hm hesR _ (eventsDefs_expr_stmt _) ?_
        intro n hn
        have hn' : Event.readn n ∈ readEvents (exprReads (Expr.Load op a)) := by
          simpa [stmtsEvents, stmtEvents] using hn
        exact Or.inl (hes n (by
          simp only [esReads, List.mem_append]
          exact Or.inl (readn_mem_readEvents.mp hn')))
      | MemorySize =>
        rcases hm : materialize_all_exprs_as_stmts s esRest with ⟨sm, esm, mats⟩
        simp only [hm, Except.ok.injEq, Prod.mk.injEq] at h
        obtain ⟨hss, hse, hst⟩ := h
        subst hss; subst hse; subst hst
        refine eventsOK_mats_readsOnly s esRest hm hesR _ (eventsDefs_expr_stmt _) ?_
        intro n hn
        have hn' : Event.readn n ∈ readEvents (exprReads Expr.MemorySize) := by
          simpa [stmtsEvents, stmtEvents] using hn
        simp [readEvents, exprReads] at hn'
      | MemoryGrow p =>
        rcases hm : materialize_all_exprs_as_stmts s esRest with ⟨sm, esm, mats⟩
        simp only [hm, Except.ok.injEq, Prod.mk.injEq] at h
        obtain ⟨hss, hse, hst⟩ := h
        subst hss; subst hse; subst hst
        refine eventsOK_mats_readsOnly s esRest hm hesR _ (eventsDefs_expr_stmt _) ?_
        intro n hn
        have hn' : Event.readn n ∈ readEvents (exprReads (Expr.MemoryGrow p)) := by
          simpa [stmtsEvents, stmtEvents] using hn
        exact Or.inl (hes n (by
          simp only [esReads, List.mem_append]
          exact Or.inl (readn_mem_readEvents.mp hn')))
      | Call fid args =>
        rcases hm : materialize_all_exprs_as_stmts s esRest with ⟨sm, esm, mats⟩
        simp only [hm, Except.ok.injEq, Prod.mk.injEq] at h
        obtain ⟨hss, hse, hst⟩ := h
        subst hss; subst hse; subst hst
        refine eventsOK_mats_readsOnly s esRest hm hesR _ (eventsDefs_expr_stmt _) ?_
        intro n hn
        have hn' : Event.readn n ∈ readEvents (exprReads (Expr.Call fid args)) := by
          simpa [stmtsEvents, stmtEvents] using hn
        exact Or.inl (hes n (by
          simp only [esReads, List.mem_append]
          exact Or.inl (readn_mem_readEvents.mp hn')))
      | CallIndirect ft tie args =>
        rcases hm : materialize_all_exprs_as_stmts s esRest with ⟨sm, esm, mats⟩
        simp only [hm, Except.ok.injEq, Prod.mk.injEq] at h
        obtain ⟨hss, hse, hst⟩ := h
        subst hss; subst hse; subst hst
        refine eventsOK_mats_readsOnly s esRest hm hesR _ (eventsDefs_expr_stmt _) ?_
        intro n hn
        have hn' : Event.readn n ∈
            readEvents (exprReads (Expr.CallIndirect ft tie args)) := by
          simpa [stmtsEvents, stmtEvents] using hn
        exact Or.inl (hes n (by
          simp only [esReads, List.mem_append]
          exact Or.inl (readn_mem_readEvents.mp hn')))
  | select =>
    simp only [lower_simple_instr] at h
    cases es with
    | nil => simp at h
    | cons slot esRest =>
      obtain ⟨cond, ct⟩ := slot
      simp only at h
      split at h
      · nomatch h
      · cases hr : ty.results with
        | nil => simp [hr] at h
        | cons t tr =>
          simp only [hr] at h
          rcases hm : materialize_all_exprs_as_stmts s esRest with ⟨sm, esm, mats⟩
          simp only [hm] at h
          have hesR : ∀ n ∈ esReads esRest, n < s.stack_var_count := fun n hn =>
            hes n (by simp only [esReads, List.mem_append]; exact Or.inr hn)
          obtain ⟨hmono, hok, hstk⟩ := materialize_eventsOK s esRest hesR
          obtain ⟨-, hlsm, -⟩ := materialize_state_fields s esRest
          rw [hm] at hmono hok hstk hlsm
          simp only at hmono hok hstk hlsm
          cases hesm : esm with
          | nil => rw [hesm] at h; simp at h
          | cons slot2 esm2 =>
            obtain ⟨elseV, te⟩ := slot2
            rw [hesm] at h
            cases esm2 with
            | nil => simp at h
            | cons slot3 esm3 =>
              obtain ⟨ifV, ti⟩ := slot3
              simp only [create_fresh_stack_var, Except.ok.injEq, Prod.mk.injEq] at h
              obtain ⟨hss, hse, hst⟩ := h
              subst hss; subst hse
              have hcount : s'.stack_var_count = sm.stack_var_count + 1 := by
                rw [← hst]
              have hlabel : s'.label_stack = sm.label_stack := by
                rw [← hst]
              have hreadsE : ∀ n ∈ esReads esm, n < sm.stack_var_count := hstk
              have hifV : ∀ n ∈ exprReads ifV, n < sm.stack_var_count := fun n hn =>
                hreadsE n (by
                  rw [hesm]
                  simp only [esReads, List.mem_append]
                  exact Or.inr (Or.inl hn))
              have helseV : ∀ n ∈ exprReads elseV, n < sm.stack_var_count := fun n hn =>
                hreadsE n (by
                  rw [hesm]
                  simp only [esReads, List.mem_append]
                  exact Or.inl hn)
              have hcond : ∀ n ∈ exprReads cond, n < s.stack_var_count := fun n hn =>
                hes n (by simp only [esReads, List.mem_append]; exact Or.inl hn)
              refine ⟨by omega, hlabel.trans hlsm, ?_, ?_⟩
              · rw [hcount, stmtsEvents_append]
                refine hok.comp ?_
                have hev : stmtsEvents
                    [Stmt.If cond [Stmt.Assign (Var.Stack sm.stack_var_count) t ifV]
                      (some [Stmt.Assign (Var.Stack sm.stack_var_count) t elseV])] =
                    readEvents (exprReads cond) ++
                      (readEvents (exprReads ifV) ++ [Event.defn sm.stack_var_count]) ++
                      (readEvents (exprReads elseV) ++ [Event.defn sm.stack_var_count]) := by
                  show readEvents (exprReads cond) ++
                      ((readEvents (exprReads ifV) ++ [Event.defn sm.stack_var_count]) ++
                        stmtsEvents []) ++
                      ((readEvents (exprReads elseV) ++ [Event.defn sm.stack_var_count]) ++
                        stmtsEvents []) ++ stmtsEvents [] = _
                  simp [stmtsEvents]
                rw [hev]
                refine ⟨?_, ?_, ?_⟩
                · have : eventsDefs (readEvents (exprReads cond) ++
                      (readEvents (exprReads ifV) ++ [Event.defn sm.stack_var_count]) ++
                      (readEvents (exprReads elseV) ++ [Event.defn sm.stack_var_count])) =
                      [sm.stack_var_count, sm.stack_var_count] := by
                    simp only [eventsDefs_append, eventsDefs_readEvents, List.nil_append]
                    rfl
                  rw [this]
                  exact DefSeq.double (DefSeq.nil _)
                · intro n hn
                  simp only [List.mem_append] at hn
                  rcases hn with (hn | hn) | hn
                  · have := hcond n (readn_mem_readEvents.mp hn)
                    omega
                  · rcases hn with hn | hn
                    · have := hifV n (readn_mem_readEvents.mp hn)
                      omega
                    · simp [readEvents] at hn
                  · rcases hn with hn | hn
                    · have := helseV n (readn_mem_readEvents.mp hn)
                      omega
                    · simp [readEvents] at hn
                · refine noDefAfterRead_of_bounds (c := sm.stack_var_count) ?_ ?_
                  · intro n hn
                    simp only [List.mem_append] at hn
                    rcases hn with (hn | hn) | hn
                    · have := hcond n (readn_mem_readEvents.mp hn); omega
                    · rcases hn with hn | hn
                      · exact hifV n (readn_mem_readEvents.mp hn)
                      · simp [readEvents] at hn
                    · rcases hn with hn | hn
                      · exact helseV n (readn_mem_readEvents.mp hn)
                      · simp [readEvents] at hn
                  · intro n hn
                    simp only [List.mem_append] at hn
                    rcases hn with (hn | hn) | hn
                    · exact absurd hn defn_not_mem_readEvents
                    · rcases hn with hn | hn
                      · exact absurd hn defn_not_mem_readEvents
                      · simp only [List.mem_singleton, Event.defn.injEq] at hn
                        omega
                    · rcases hn with hn | hn
                      · exact absurd hn defn_not_mem_readEvents
                      · simp only [List.mem_singleton, Event.defn.injEq] at hn
                        omega
              · intro n hn
                rw [hcount]
                simp only [esReads, exprReads, List.mem_append, List.mem_singleton] at hn
                rcases hn with rfl | hn
                · omega
                · have : n < sm.stack_var_count := hreadsE n (by
                    rw [hesm]
                    simp only [esReads, List.mem_append]
                    exact Or.inr (Or.inr hn))
                  omega
  | localGet idx =>
    simp only [lower_simple_instr] at h
    cases hr : ty.results with
    | nil => simp [hr] at h
    | cons t tr =>
      simp only [hr, Except.ok.injEq, Prod.mk.injEq] at h
      obtain ⟨hss, hse, hst⟩ := h
      subst hss; subst hse; subst hst
      refine ⟨Nat.le_refl _, rfl, EventsOK.nil, ?_⟩
      intro n hn
      have hl : exprReads (Expr.VarRef (local_idx_to_var context idx)) = [] := by
        by_cases hc : idx < context.func_ty.inputs.length <;>
          simp [local_idx_to_var, hc, exprReads]
      simp only [esReads, hl, List.nil_append] at hn
      exact hes n hn
  | localSet idx =>
    simp only [lower_simple_instr] at h
    cases es with
    | nil => simp at h
    | cons slot esRest =>
      obtain ⟨rhs, t⟩ := slot
      simp only at h
      cases hi : ty.inputs with
      | nil => simp [hi] at h
      | cons t0 ti =>
        simp only [hi] at h
        split at h
        · nomatch h
        · rcases hm : materialize_all_exprs_as_stmts s esRest with ⟨sm, esm, mats⟩
          simp only [hm, Except.ok.injEq, Prod.mk.injEq] at h
          obtain ⟨hss, hse, hst⟩ := h
          subst hss; subst hse; subst hst
          have hesR : ∀ n ∈ esReads esRest, n < s.stack_var_count := fun n hn =>
            hes n (by simp only [esReads, List.mem_append]; exact Or.inr hn)
          have hlv : ∀ n, local_idx_to_var context idx ≠ Var.Stack n := by
            intro n
            by_cases hc : idx < context.func_ty.inputs.length <;>
              simp [local_idx_to_var, hc]
          have hev : stmtsEvents [Stmt.Assign (local_idx_to_var context idx) t rhs] =
              readEvents (exprReads rhs) := by
            show stmtEvents (Stmt.Assign (local_idx_to_var context idx) t rhs) ++
                stmtsEvents [] = _
            rw [stmtEvents_assign_not_stack hlv]
            simp [stmtsEvents]
          refine eventsOK_mats_readsOnly s esRest hm hesR _
            (by rw [hev, eventsDefs_readEvents]) ?_
          intro n hn
          rw [hev] at hn
          exact Or.inl (hes n (by
            simp only [esReads, List.mem_append]
            exact Or.inl (readn_mem_readEvents.mp hn)))
  | localTee idx =>
    simp only [lower_simple_instr] at h
    cases es with
    | nil => simp at h
    | cons slot esRest =>
      obtain ⟨value, t⟩ := slot
      simp only at h
      cases hi : ty.inputs with
      | nil => simp [hi] at h
      | cons t0 ti =>
        simp only [hi] at h
        split at h
        · nomatch h
        · rcases hm : materialize_all_exprs_as_stmts s esRest with ⟨sm, esm, mats⟩
          simp only [hm, Except.ok.injEq, Prod.mk.injEq] at h
          obtain ⟨hss, hse, hst⟩ := h
          subst hss; subst hse; subst hst
          have hesR : ∀ n ∈ esReads esRest, n < s.stack_var_count := fun n hn =>
            hes n (by simp only [esReads, List.mem_append]; exact Or.inr hn)
          have hlv : ∀ n, local_idx_to_var context idx ≠ Var.Stack n := by
            intro n
            by_cases hc : idx < context.func_ty.inputs.length <;>
              simp [local_idx_to_var, hc]
          have hev : stmtsEvents [Stmt.Assign (local_idx_to_var context idx) t value] =
              readEvents (exprReads value) := by
            show stmtEvents (Stmt.Assign (local_idx_to_var context idx) t value) ++
                stmtsEvents [] = _
            rw [stmtEvents_assign_not_stack hlv]
            simp [stmtsEvents]
          obtain ⟨h1, h2, h3, h4⟩ := eventsOK_mats_readsOnly s esRest hm hesR _
            (by rw [hev, eventsDefs_readEvents])
            (fun n hn => by
              rw [hev] at hn
              exact Or.inl (hes n (by
                simp only [esReads, List.mem_append]
                exact Or.inl (readn_mem_readEvents.mp hn))))
          refine ⟨h1, h2, h3, ?_⟩
          intro n hn
          have hl : exprReads (Expr.VarRef (local_idx_to_var context idx)) = [] := by
            by_cases hc : idx < context.func_ty.inputs.length <;>
              simp [local_idx_to_var, hc, exprReads]
          simp only [esReads, hl, List.nil_append] at hn
          exact h4 n hn
  | globalGet idx =>
    simp only [lower_simple_instr] at h
    cases hr : ty.results with
    | nil => simp [hr] at h
    | cons t tr =>
      simp only [hr, Except.ok.injEq, Prod.mk.injEq] at h
      obtain ⟨hss, hse, hst⟩ := h
      subst hss; subst hse; subst hst
      refine ⟨Nat.le_refl _, rfl, EventsOK.nil, ?_⟩
      intro n hn
      simp only [esReads, exprReads, List.nil_append] at hn
      exact hes n hn
  | globalSet idx =>
    simp only [lower_simple_instr] at h
    cases es with
    | nil => simp at h
    | cons slot esRest =>
      obtain ⟨rhs, t⟩ := slot
      simp only at h
      cases hi : ty.inputs with
      | nil => simp [hi] at h
      | cons t0 ti =>
        simp only [hi] at h
        split at h
        · nomatch h
        · rcases hm : materialize_all_exprs_as_stmts s esRest with ⟨sm, esm, mats⟩
          simp only [hm, Except.ok.injEq, Prod.mk.injEq] at h
          obtain ⟨hss, hse, hst⟩ := h
          subst hss; subst hse; subst hst
          have hesR : ∀ n ∈ esReads esRest, n < s.stack_var_count := fun n hn =>
            hes n (by simp only [esReads, List.mem_append]; exact Or.inr hn)
          have hgv : ∀ n, Var.Global idx ≠ Var.Stack n := fun n hn => by nomatch hn
          have hev : stmtsEvents [Stmt.Assign (Var.Global idx) t rhs] =
              readEvents (exprReads rhs) := by
            show stmtEvents (Stmt.Assign (Var.Global idx) t rhs) ++ stmtsEvents [] = _
            rw [stmtEvents_assign_not_stack hgv]
            simp [stmtsEvents]
          refine eventsOK_mats_readsOnly s esRest hm hesR _
            (by rw [hev, eventsDefs_readEvents]) ?_
          intro n hn
          rw [hev] at hn
          exact Or.inl (hes n (by
            simp only [esReads, List.mem_append]
            exact Or.inl (readn_mem_readEvents.mp hn)))
  | load op memarg =>
    simp only [lower_simple_instr] at h
    cases es with
    | nil => simp at h
    | cons slot esRest =>
      obtain ⟨addr, at0⟩ := slot
      simp only at h
      split at h
      · nomatch h
      · cases hr : ty.results with
        | nil => simp [hr] at h
        | cons t tr =>
          simp only [hr] at h
          have hfinish : ∀ addr' : Expr,
              (∀ n, n ∈ exprReads addr' → n ∈ exprReads addr) →
              Except.ok ([], (Expr.Load op addr', t) :: esRest, s) =
                (Except.ok (ss, esOut, s') :
                  Except Failure (List Stmt × List (Expr × ValType) × State)) →
              s.stack_var_count ≤ s'.stack_var_count ∧
              s'.label_stack = s.label_stack ∧
              EventsOK s.stack_var_count s'.stack_var_count (stmtsEvents ss) ∧
              (∀ n ∈ esReads esOut, n < s'.stack_var_count) := by
            intro addr' haddrR h
            simp only [Except.ok.injEq, Prod.mk.injEq] at h
            obtain ⟨hss, hse, hst⟩ := h
            subst hss; subst hse; subst hst
            refine ⟨Nat.le_refl _, rfl, EventsOK.nil, ?_⟩
            intro n hn
            simp only [esReads, exprReads, List.mem_append] at hn
            rcases hn with hn | hn
            · exact hes n (by
                simp only [esReads, List.mem_append]
                exact Or.inl (haddrR n hn))
            · exact hes n (by
                simp only [esReads, List.mem_append]
                exact Or.inr hn)
          split at h
          · split at h
            · exact hfinish _
                (fun n hn => by simpa [exprReads] using hn) h
            · nomatch h
          · exact hfinish addr (fun n hn => hn) h
  | store op memarg =>
    simp only [lower_simple_instr] at h
    cases es with
    | nil => simp at h
    | cons slot esRest =>
      obtain ⟨value, vt⟩ := slot
      simp only at h
      cases hi : ty.inputs.get? 1 with
      | none =>
        simp only [hi] at h
        nomatch h
      | some t1 =>
        simp only [hi] at h
        split at h
        · nomatch h
        · cases esRest with
          | nil => simp at h
          | cons slot2 esRest2 =>
            obtain ⟨addr, at0⟩ := slot2
            simp only at h
            split at h
            · nomatch h
            · rcases hm : materialize_all_exprs_as_stmts s esRest2 with ⟨sm, esm, mats⟩
              simp only [hm] at h
              have hesR : ∀ n ∈ esReads esRest2, n < s.stack_var_count := fun n hn =>
                hes n (by
                  simp only [esReads, List.mem_append]
                  exact Or.inr (Or.inr hn))
              have hfinish : ∀ addr' : Expr,
                  (∀ n, n ∈ exprReads addr' → n ∈ exprReads addr) →
                  Except.ok (mats ++ [Stmt.Store op addr' value], esm, sm) =
                    (Except.ok (ss, esOut, s') :
                      Except Failure (List Stmt × List (Expr × ValType) × State)) →
                  s.stack_var_count ≤ s'.stack_var_count ∧
                  s'.label_stack = s.label_stack ∧
                  EventsOK s.stack_var_count s'.stack_var_count (stmtsEvents ss) ∧
                  (∀ n ∈ esReads esOut, n < s'.stack_var_count) := by
                intro addr' haddrR h
                simp only [Except.ok.injEq, Prod.mk.injEq] at h
                obtain ⟨hss, hse, hst⟩ := h
                subst hss; subst hse; subst hst
                have hev : stmtsEvents [Stmt.Store op addr' value] =
                    readEvents (exprReads addr') ++ readEvents (exprReads value) := by
                  simp [stmtsEvents, stmtEvents]
                refine eventsOK_mats_readsOnly s esRest2 hm hesR _
                  (by rw [hev, eventsDefs_append, eventsDefs_readEvents,
                        eventsDefs_readEvents]; rfl) ?_
                intro n hn
                rw [hev] at hn
                rcases List.mem_append.mp hn with hn | hn
                · exact Or.inl (hes n (by
                    simp only [esReads, List.mem_append]
                    exact Or.inr (Or.inl (haddrR n (readn_mem_readEvents.mp hn)))))
                · exact Or.inl (hes n (by
                    simp only [esReads, List.mem_append]
                    exact Or.inl (readn_mem_readEvents.mp hn)))
              split at h
              · split at h
                · exact hfinish _
                    (fun n hn => by simpa [exprReads] using hn) h
                · nomatch h
              · exact hfinish addr (fun n hn => hn) h
  | memorySize memoryIdx =>
    simp only [lower_simple_instr] at h
    split at h
    · nomatch h
    · cases hr : ty.results with
      | nil => simp [hr] at h
      | cons t tr =>
        simp only [hr, Except.ok.injEq, Prod.mk.injEq] at h
        obtain ⟨hss, hse, hst⟩ := h
        subst hss; subst hse; subst hst
        refine ⟨Nat.le_refl _, rfl, EventsOK.nil, ?_⟩
        intro n hn
        simp only [esReads, exprReads, List.nil_append] at hn
        exact hes n hn
  | memoryGrow memoryIdx =>
    simp only [lower_simple_instr] at h
    split at h
    · nomatch h
    · cases es with
      | nil => simp at h
      | cons slot esRest =>
        obtain ⟨pages, pt⟩ := slot
        simp only at h
        split at h
        · nomatch h
        · cases hr : ty.results with
          | nil => simp [hr] at h
          | cons t tr =>
            simp only [hr, Except.ok.injEq, Prod.mk.injEq] at h
            obtain ⟨hss, hse, hst⟩ := h
            subst hss; subst hse; subst hst
            refine ⟨Nat.le_refl _, rfl, EventsOK.nil, ?_⟩
            intro n hn
            simp only [esReads, exprReads, List.mem_append] at hn
            exact hes n (by simp only [esReads, List.mem_append]; exact hn)
  | const val =>
    simp only [lower_simple_instr] at h
    cases hr : ty.results with
    | nil => simp [hr] at h
    | cons t tr =>
      simp only [hr, Except.ok.injEq, Prod.mk.injEq] at h
      obtain ⟨hss, hse, hst⟩ := h
      subst hss; subst hse; subst hst
      refine ⟨Nat.le_refl _, rfl, EventsOK.nil, ?_⟩
      intro n hn
      simp only [esReads, exprReads, List.nil_append] at hn
      exact hes n hn
  | unary op =>
    simp only [lower_simple_instr] at h
    cases es with
    | nil => simp at h
    | cons slot esRest =>
      obtain ⟨arg, t⟩ := slot
      simp only at h
      cases hi : ty.inputs with
      | nil => simp [hi] at h
      | cons t0 ti =>
        simp only [hi] at h
        split at h
        · nomatch h
        · cases hr : ty.results with
          | nil => simp [hr] at h
          | cons tr trr =>
            simp only [hr, Except.ok.injEq, Prod.mk.injEq] at h
            obtain ⟨hss, hse, hst⟩ := h
            subst hss; subst hse; subst hst
            refine ⟨Nat.le_refl _, rfl, EventsOK.nil, ?_⟩
            intro n hn
            simp only [esReads, exprReads, List.mem_append] at hn
            exact hes n (by simp only [esReads, List.mem_append]; exact hn)
  | binary op =>
    simp only [lower_simple_instr] at h
    cases es with
    | nil => simp at h
    | cons slot esRest =>
      obtain ⟨right, tRight⟩ := slot
      simp only at h
      cases hi : ty.inputs.get? 1 with
      | none =>
        simp only [hi] at h
        nomatch h
      | some t1 =>
        simp only [hi] at h
        split at h
        · nomatch h
        · cases esRest with
          | nil => simp at h
          | cons slot2 esRest2 =>
            obtain ⟨left, tLeft⟩ := slot2
            simp only at h
            cases hi0 : ty.inputs with
            | nil => simp [hi0] at h
            | cons t0 ti0 =>
              simp only [hi0] at h
              split at h
              · nomatch h
              · cases hr : ty.results with
                | nil => simp [hr] at h
                | cons tr trr =>
                  simp only [hr, Except.ok.injEq, Prod.mk.injEq] at h
                  obtain ⟨hss, hse, hst⟩ := h
                  subst hss; subst hse; subst hst
                  refine ⟨Nat.le_refl _, rfl, EventsOK.nil, ?_⟩
                  intro n hn
                  simp only [esReads, exprReads, List.mem_append] at hn
                  rcases hn with (hn | hn) | hn
                  · exact hes n (by
                      simp only [esReads, List.mem_append]
                      exact Or.inr (Or.inl hn))
                  · exact hes n (by
                      simp only [esReads, List.mem_append]
                      exact Or.inl hn)
                  · exact hes n (by
                      simp only [esReads, List.mem_append]
                      exact Or.inr (Or.inr hn))

/-- Structural facts about create_block_label_and_var: the counter is
untouched, the pushed frame carries at most a BlockResult variable, and the
new expression stack reads nothing new. -/
theorem create_block_fields (s : State) (es : List (Expr × ValType))
    (bt : Option ValType) (il : Bool) :
    (create_block_label_and_var s es bt il).2.1.stack_var_count = s.stack_var_count ∧
    ((create_block_label_and_var s es bt il).2.1.label_stack =
      (s.label_count, il, bt.map fun _ => Var.BlockResult s.label_count) :: s.label_stack) ∧
    (∀ n ∈ esReads (create_block_label_and_var s es bt il).2.2, n ∈ esReads es) := by
  cases bt with
  | none => exact ⟨rfl, rfl, fun n hn => hn⟩
  | some t =>
    refine ⟨rfl, rfl, ?_⟩
    intro n hn
    simpa [esReads, exprReads] using hn

/-- A BlockResult-or-nothing frame variable is never a Stack variable. -/
theorem blockVar_not_stack (bt : Option ValType) (lc : Nat) :
    ∀ n, (bt.map fun _ => Var.BlockResult lc) ≠ some (Var.Stack n) := by
  intro n
  cases bt <;> simp

/-- Treating the whole recursive driver: on success, the stack-variable
counter only grows, the events of the emitted statements are well formed
(definitions form a DefSeq between the two counters, reads stay below the
final counter, and no definition follows a read of the same variable), and
the frames remaining on the label stack still never carry Stack
variables. -/
theorem wimplify_instrs_events :
    ∀ (fuel : Nat) (context : Context) (s : State) (es : List (Expr × ValType))
      (ss : List Stmt) (we : Bool) (s' : State),
      wimplify_instrs fuel context s es = .ok (ss, we, s') →
      (∀ n ∈ esReads es, n < s.stack_var_count) →
      (∀ fr ∈ s.label_stack, ∀ n, fr.2.2 ≠ some (Var.Stack n)) →
      s.stack_var_count ≤ s'.stack_var_count ∧
      EventsOK s.stack_var_count s'.stack_var_count (stmtsEvents ss) ∧
      (∀ fr ∈ s'.label_stack, ∀ n, fr.2.2 ≠ some (Var.Stack n)) := by
  intro fuel
  induction fuel with
  | zero =>
    intro context s es ss we s' h hes hls
    exact absurd h (by simp [wimplify_instrs])
  | succ fuel ih =>
    intro context s es ss we s' h hes hls
    cases hinstrs : s.instrs with
    | nil =>
      simp only [wimplify_instrs, hinstrs, Except.ok.injEq, Prod.mk.injEq] at h
      obtain ⟨hss, hwe, hst⟩ := h
      subst hss; subst hst
      exact ⟨Nat.le_refl _, EventsOK.nil, hls⟩
    | cons p rest =>
      obtain ⟨instr, tyRes⟩ := p
      simp only [wimplify_instrs, hinstrs] at h
      cases tyRes with
      | error e => nomatch h
      | ok tyv =>
        cases tyv with
        | Unreachable =>
          cases instr
          case end_ =>
            simp only [Except.ok.injEq, Prod.mk.injEq] at h
            obtain ⟨hss, hwe, hst⟩ := h
            subst hss; subst hst
            refine ⟨Nat.le_refl _, EventsOK.nil, ?_⟩
            intro fr hfr
            exact hls fr ((List.tail_sublist s.label_stack).subset hfr)
          case else_ =>
            simp only [Except.ok.injEq, Prod.mk.injEq] at h
            obtain ⟨hss, hwe, hst⟩ := h
            subst hss; subst hst
            exact ⟨Nat.le_refl _, EventsOK.nil, hls⟩
          all_goals exact ih context { s with instrs := rest } es ss we s' h hes hls
        | Reachable ty =>
          cases instr
          case block bt =>
            rcases hm : materialize_all_exprs_as_stmts { s with instrs := rest } es
              with ⟨sm, esm, mats⟩
            simp only [hm] at h
            rcases hc : create_block_label_and_var sm esm bt false with ⟨label, s2, es2⟩
            simp only [hc] at h
            rw [except_bind_ok] at h
            obtain ⟨⟨blockBody, ewe, s3⟩, hblock, h⟩ := h
            split at h
            · nomatch h
            · rw [except_bind_ok] at h
              obtain ⟨⟨restS, we1, s4⟩, hrest, h⟩ := h
              simp only [Except.ok.injEq, Prod.mk.injEq] at h
              obtain ⟨hss, hwe, hst⟩ := h
              subst hss; subst hst
              obtain ⟨hmono, hokM, hstk⟩ :=
                materialize_eventsOK { s with instrs := rest } es hes
              obtain ⟨-, hlsm, -⟩ := materialize_state_fields { s with instrs := rest } es
              rw [hm] at hmono hokM hstk hlsm
              simp only at hmono hokM hstk hlsm
              obtain ⟨hc1, hc2, hc3⟩ := create_block_fields sm esm bt false
              rw [hc] at hc1 hc2 hc3
              simp only at hc1 hc2 hc3
              have hls2 : ∀ fr ∈ s2.label_stack, ∀ n, fr.2.2 ≠ some (Var.Stack n) := by
                rw [hc2]
                intro fr hfr n
                rcases List.mem_cons.mp hfr with rfl | hfr
                · exact blockVar_not_stack bt sm.label_count n
                · rw [hlsm] at hfr
                  exact hls fr hfr n
              obtain ⟨hmono2, hokB, hls3⟩ := ih context s2 [] blockBody ewe s3 hblock
                (fun n hn => absurd hn (List.not_mem_nil _)) hls2
              rw [hc1] at hmono2 hokB
              have hes2 : ∀ n ∈ esReads es2, n < s3.stack_var_count := fun n hn =>
                Nat.lt_of_lt_of_le (hstk n (hc3 n hn)) hmono2
              obtain ⟨hmono3, hokR, hls4⟩ := ih context s3 es2 restS we1 s4 hrest hes2 hls3
              refine ⟨by omega, ?_, hls4⟩
              have hev : stmtsEvents (mats ++ Stmt.Block blockBody label :: restS) =
                  stmtsEvents mats ++ (stmtsEvents blockBody ++ stmtsEvents restS) := by
                rw [stmtsEvents_append]
                rfl
              rw [hev]
              exact hokM.comp (hokB.comp hokR)
          case loop bt =>
            rcases hm : materialize_all_exprs_as_stmts { s with instrs := rest } es
              with ⟨sm, esm, mats⟩
            simp only [hm] at h
            rcases hc : create_block_label_and_var sm esm bt true with ⟨label, s2, es2⟩
            simp only [hc] at h
            rw [except_bind_ok] at h
            obtain ⟨⟨loopBody, ewe, s3⟩, hblock, h⟩ := h
            split at h
            · nomatch h
            · rw [except_bind_ok] at h
              obtain ⟨⟨restS, we1, s4⟩, hrest, h⟩ := h
              simp only [Except.ok.injEq, Prod.mk.injEq] at h
              obtain ⟨hss, hwe, hst⟩ := h
              subst hss; subst hst
              obtain ⟨hmono, hokM, hstk⟩ :=
                materialize_eventsOK { s with instrs := rest } es hes
              obtain ⟨-, hlsm, -⟩ := materialize_state_fields { s with instrs := rest } es
              rw [hm] at hmono hokM hstk hlsm
              simp only at hmono hokM hstk hlsm
              obtain ⟨hc1, hc2, hc3⟩ := create_block_fields sm esm bt true
              rw [hc] at hc1 hc2 hc3
              simp only at hc1 hc2 hc3
              have hls2 : ∀ fr ∈ s2.label_stack, ∀ n, fr.2.2 ≠ some (Var.Stack n) := by
                rw [hc2]
                intro fr hfr n
                rcases List.mem_cons.mp hfr with rfl | hfr
                · exact blockVar_not_stack bt sm.label_count n
                · rw [hlsm] at hfr
                  exact hls fr hfr n
              obtain ⟨hmono2, hokB, hls3⟩ := ih context s2 [] loopBody ewe s3 hblock
                (fun n hn => absurd hn (List.not_mem_nil _)) hls2
              rw [hc1] at hmono2 hokB
              have hes2 : ∀ n ∈ esReads es2, n < s3.stack_var_count := fun n hn =>
                Nat.lt_of_lt_of_le (hstk n (hc3 n hn)) hmono2
              obtain ⟨hmono3, hokR, hls4⟩ := ih context s3 es2 restS we1 s4 hrest hes2 hls3
              refine ⟨by omega, ?_, hls4⟩
              have hev : stmtsEvents (mats ++ Stmt.Loop label loopBody :: restS) =
                  stmtsEvents mats ++ (stmtsEvents loopBody ++ stmtsEvents restS) := by
                rw [stmtsEvents_append]
                rfl
              rw [hev]
              exact hokM.comp (hokB.comp hokR)
          case if_ bt =>
            cases es with
            | nil => simp at h
            | cons slot esRest =>
              obtain ⟨cond, ct⟩ := slot
              simp only at h
              split at h
              · nomatch h
              · rcases hm : materialize_all_exprs_as_stmts { s with instrs := rest } esRest
                  with ⟨sm, esm, mats⟩
                simp only [hm] at h
                rcases hc : create_block_label_and_var sm esm bt false with ⟨label, s2, es2⟩
                simp only [hc] at h
                rw [except_bind_ok] at h
                obtain ⟨⟨ifBody, hasElse, s3⟩, hif, h⟩ := h
                have hesR : ∀ n ∈ esReads esRest, n < s.stack_var_count := fun n hn =>
                  hes n (by simp only [esReads, List.mem_append]; exact Or.inr hn)
                have hcond : ∀ n ∈ exprReads cond, n < s.stack_var_count := fun n hn =>
                  hes n (by simp only [esReads, List.mem_append]; exact Or.inl hn)
                obtain ⟨hmono, hokM, hstk⟩ :=
                  materialize_eventsOK { s with instrs := rest } esRest hesR
                obtain ⟨-, hlsm, -⟩ :=
                  materialize_state_fields { s with instrs := rest } esRest
                rw [hm] at hmono hokM hstk hlsm
                simp only at hmono hokM hstk hlsm
                obtain ⟨hc1, hc2, hc3⟩ := create_block_fields sm esm bt false
                rw [hc] at hc1 hc2 hc3
                simp only at hc1 hc2 hc3
                have hls2 : ∀ fr ∈ s2.label_stack, ∀ n, fr.2.2 ≠ some (Var.Stack n) := by
                  rw [hc2]
                  intro fr hfr n
                  rcases List.mem_cons.mp hfr with rfl | hfr
                  · exact blockVar_not_stack bt sm.label_count n
                  · rw [hlsm] at hfr
                    exact hls fr hfr n
                obtain ⟨hmono2, hokB, hls3⟩ := ih context s2 [] ifBody hasElse s3 hif
                  (fun n hn => absurd hn (List.not_mem_nil _)) hls2
                rw [hc1] at hmono2 hokB
                have hfinish : ∀ (elseBody : Option (List Stmt)) (s4 : State)
                    (eev : List Event),
                    stmtEvents (Stmt.If cond ifBody elseBody) =
                      readEvents (exprReads cond) ++ stmtsEvents ifBody ++ eev →
                    s3.stack_var_count ≤ s4.stack_var_count →
                    EventsOK s3.stack_var_count s4.stack_var_count eev →
                    (∀ fr ∈ s4.label_stack, ∀ n, fr.2.2 ≠ some (Var.Stack n)) →
                    (do
                      let (restStmts, wasElse, s5) ← wimplify_instrs fuel context s4 es2
                      Except.ok (mats ++
                        Stmt.Block [Stmt.If cond ifBody elseBody] label :: restStmts,
                        wasElse, s5)) = Except.ok (ss, we, s') →
                    s.stack_var_count ≤ s'.stack_var_count ∧
                    EventsOK s.stack_var_count s'.stack_var_count (stmtsEvents ss) ∧
                    (∀ fr ∈ s'.label_stack, ∀ n, fr.2.2 ≠ some (Var.Stack n)) := by
                  intro elseBody s4 eev hEif hmono3 hokE hls4 h
                  rw [except_bind_ok] at h
                  obtain ⟨⟨restS, we1, s5⟩, hrest, h⟩ := h
                  simp only [Except.ok.injEq, Prod.mk.injEq] at h
                  obtain ⟨hss, hwe, hst⟩ := h
                  subst hss; subst hst
                  have hes2 : ∀ n ∈ esReads es2, n < s4.stack_var_count := fun n hn =>
                    Nat.lt_of_lt_of_le (Nat.lt_of_lt_of_le (hstk n (hc3 n hn)) hmono2) hmono3
                  obtain ⟨hmono4, hokR, hls5⟩ :=
                    ih context s4 es2 restS we1 s5 hrest hes2 hls4
                  refine ⟨by omega, ?_, hls5⟩
                  have hcondOK : EventsOK sm.stack_var_count sm.stack_var_count
                      (readEvents (exprReads cond)) :=
                    EventsOK.readsOnly (eventsDefs_readEvents _)
                      (fun n hn => Nat.lt_of_lt_of_le
                        (hcond n (readn_mem_readEvents.mp hn)) hmono)
                  have hev : stmtsEvents (mats ++
                      Stmt.Block [Stmt.If cond ifBody elseBody] label :: restS) =
                      stmtsEvents mats ++ ((readEvents (exprReads cond) ++
                        (stmtsEvents ifBody ++ eev)) ++ stmtsEvents restS) := by
                    rw [stmtsEvents_append]
                    show stmtsEvents mats ++
                      (stmtEvents (Stmt.Block [Stmt.If cond ifBody elseBody] label) ++
                        stmtsEvents restS) = _
                    rw [show stmtEvents (Stmt.Block [Stmt.If cond ifBody elseBody] label) =
                      stmtEvents (Stmt.If cond ifBody elseBody) ++ [] from rfl]
                    rw [List.append_nil, hEif]
                    simp only [List.append_assoc]
                  rw [hev]
                  exact hokM.comp ((hcondOK.comp (hokB.comp hokE)).comp hokR)
                split at h
                · rw [except_bind_ok] at h
                  obtain ⟨⟨elseBody, ewe2, s4⟩, helse, h⟩ := h
                  split at h
                  · nomatch h
                  · obtain ⟨hmono4, hokE, hls4⟩ := ih context s3 [] elseBody ewe2 s4 helse
                      (fun n hn => absurd hn (List.not_mem_nil _)) hls3
                    exact hfinish (some elseBody) s4 (stmtsEvents elseBody) rfl
                      hmono4 hokE hls4 h
                · exact hfinish none s3 [] (by simp [stmtEvents]) (Nat.le_refl _)
                    EventsOK.nil hls3 h
          case else_ =>
            cases hstack : s.label_stack with
            | nil => simp [hstack] at h
            | cons fr lsRest =>
              obtain ⟨l0, il, irv⟩ := fr
              simp only [hstack] at h
              split at h
              · nomatch h
              · cases irv with
                | some rv =>
                  cases es with
                  | nil => simp at h
                  | cons slot esRest =>
                    obtain ⟨value, tv⟩ := slot
                    simp only at h
                    split at h
                    · simp only [Except.ok.injEq, Prod.mk.injEq] at h
                      obtain ⟨hss, hwe, hst⟩ := h
                      subst hss; subst hst
                      have hrv : ∀ n, rv ≠ Var.Stack n := fun n hn =>
                        hls _ (hstack ▸ List.mem_cons_self _ _) n (by rw [hn])
                      refine ⟨Nat.le_refl _, ?_,
                        fun fr hfr n => hls fr (by rw [hstack]; exact hfr) n⟩
                      have hev : stmtsEvents [Stmt.Assign rv tv value] =
                          readEvents (exprReads value) := by
                        show stmtEvents (Stmt.Assign rv tv value) ++ stmtsEvents [] = _
                        rw [stmtEvents_assign_not_stack hrv]
                        simp [stmtsEvents]
                      rw [hev]
                      exact EventsOK.readsOnly (eventsDefs_readEvents _)
                        (fun n hn => hes n (by
                          simp only [esReads, List.mem_append]
                          exact Or.inl (readn_mem_readEvents.mp hn)))
                    · nomatch h
                | none =>
                  cases es with
                  | cons slot esRest => nomatch h
                  | nil =>
                    simp only [List.isEmpty_nil, if_true, Except.ok.injEq,
                      Prod.mk.injEq] at h
                    obtain ⟨hss, hwe, hst⟩ := h
                    subst hss; subst hst
                    exact ⟨Nat.le_refl _, EventsOK.nil,
                      fun fr hfr n => hls fr (by rw [hstack]; exact hfr) n⟩
          case end_ =>
            cases hstack : s.label_stack with
            | nil => simp [hstack] at h
            | cons fr lsRest =>
              obtain ⟨l0, il, brv⟩ := fr
              simp only [hstack] at h
              have hlsRest : ∀ fr ∈ lsRest, ∀ n, fr.2.2 ≠ some (Var.Stack n) :=
                fun fr hfr => hls fr (hstack ▸ List.mem_cons_of_mem _ hfr)
              cases brv with
              | some rv =>
                cases es with
                | nil => simp at h
                | cons slot esRest =>
                  obtain ⟨value, tv⟩ := slot
                  simp only at h
                  split at h
                  · simp only [Except.ok.injEq, Prod.mk.injEq] at h
                    obtain ⟨hss, hwe, hst⟩ := h
                    subst hss; subst hst
                    have hrv : ∀ n, rv ≠ Var.Stack n := fun n hn =>
                      hls _ (hstack ▸ List.mem_cons_self _ _) n (by rw [hn])
                    refine ⟨Nat.le_refl _, ?_, hlsRest⟩
                    have hev : stmtsEvents [Stmt.Assign rv tv value] =
                        readEvents (exprReads value) := by
                      show stmtEvents (Stmt.Assign rv tv value) ++ stmtsEvents [] = _
                      rw [stmtEvents_assign_not_stack hrv]
                      simp [stmtsEvents]
                    rw [hev]
                    exact EventsOK.readsOnly (eventsDefs_readEvents _)
                      (fun n hn => hes n (by
                        simp only [esReads, List.mem_append]
                        exact Or.inl (readn_mem_readEvents.mp hn)))
                  · nomatch h
              | none =>
                cases es with
                | cons slot esRest => nomatch h
                | nil =>
                  simp only [List.isEmpty_nil, if_true, Except.ok.injEq,
                    Prod.mk.injEq] at h
                  obtain ⟨hss, hwe, hst⟩ := h
                  subst hss; subst hst
                  exact ⟨Nat.le_refl _, EventsOK.nil, hlsRest⟩
          all_goals (
            rw [except_bind_ok] at h
            obtain ⟨⟨ss1, es1, s1⟩, hstep, h⟩ := h
            rw [except_bind_ok] at h
            obtain ⟨⟨restS, we1, sf⟩, hrest, h⟩ := h
            simp only [Except.ok.injEq, Prod.mk.injEq] at h
            obtain ⟨hss, hwe, hst⟩ := h
            subst hss; subst hst
            obtain ⟨m1, lseq, ok1, esb⟩ :=
              lower_simple_instr_events context { s with instrs := rest } es _ ty
                ss1 es1 s1 hstep hes hls
            obtain ⟨m2, ok2, hls2⟩ := ih context s1 es1 restS we1 sf hrest esb
              (by rw [lseq]; exact hls)
            refine ⟨Nat.le_trans m1 m2, ?_, hls2⟩
            rw [stmtsEvents_append]
            exact ok1.comp ok2)

/-- The local-default initialization statements never touch Stack
temporaries: their event sequence is empty. -/
theorem initLocals_events : ∀ (i : Nat) (locals : List (Option String × ValType))
    (inits : List Stmt), initLocals i locals = .ok inits → stmtsEvents inits = [] := by
  intro i locals
  induction locals generalizing i with
  | nil =>
    intro inits h
    simp only [initLocals, Except.ok.injEq] at h
    subst h
    rfl
  | cons p rest ih =>
    obtain ⟨nm, t⟩ := p
    cases nm with
    | some nm => intro inits h; nomatch h
    | none =>
      intro inits h
      simp only [initLocals] at h
      rw [except_bind_ok] at h
      obtain ⟨restStmts, hrest, h⟩ := h
      simp only [Except.ok.injEq] at h
      subst h
      show stmtEvents _ ++ stmtsEvents restStmts = []
      rw [ih (i + 1) restStmts hrest]
      rfl

/-- The concrete lowering of selectDoubleAssignFunction: the select
temporary Stack 0 is assigned once in each arm of the emitted If. -/
def selectLoweredBody : List Stmt :=
  [Stmt.Assign (Var.Local 0) .i32 (Expr.Const (Val.I32 0)),
   Stmt.If (Expr.Const (Val.I32 0))
     [Stmt.Assign (Var.Stack 0) .i32 (Expr.Const (Val.I32 1))]
     (some [Stmt.Assign (Var.Stack 0) .i32 (Expr.Const (Val.I32 2))]),
   Stmt.Assign (Var.Local 0) .i32 (Expr.VarRef (Var.Stack 0))]

/-- C8 counterexample: in the successfully lowered function
const 1; const 2; const 0; select; local.set 0; end the Stack 0 temporary
has TWO defining Assigns in the output (one in each arm of the If emitted
for select), refuting "exactly one defining Assign". -/
theorem C8_counterexample :
    (wimplify_function_body selectDoubleAssignFunction emptyModule).toOption.map
      (fun body => (eventsDefs (stmtsEvents body)).count 0) = some 2 := rfl

/-- C8 (amended): in every successfully lowered function the pre-order
sequence of Stack-temporary definitions is dense and monotone starting at
0 up to some bound: a temporary below the bound is defined exactly once,
or exactly twice (the two If arms emitted for a select); no temporary at
or above the bound is ever defined; every read of a Stack temporary is
below the bound and no definition of a temporary follows a read of it in
pre-order. -/
theorem C8_stack_var_discipline (function : HLFunction) (module : HLModule)
    (body : List Stmt)
    (h : wimplify_function_body function module = Except.ok body) :
    ∃ c', DefSeq 0 c' (eventsDefs (stmtsEvents body)) ∧
      (∀ n, n ∈ eventsDefs (stmtsEvents body) ↔ n < c') ∧
      (∀ n, n < c' → (eventsDefs (stmtsEvents body)).count n = 1 ∨
          (eventsDefs (stmtsEvents body)).count n = 2) ∧
      (∀ n, Event.readn n ∈ stmtsEvents body → n < c') ∧
      NoDefAfterRead (stmtsEvents body) := by
  simp only [wimplify_function_body] at h
  rw [except_bind_ok] at h
  obtain ⟨inits, hinit, h⟩ := h
  have hie := initLocals_events 0 function.locals inits hinit
  cases hcode : function.code with
  | none =>
    simp only [hcode, Except.ok.injEq] at h
    subst h
    refine ⟨0, ?_, ?_, ?_, ?_, ?_⟩
    · rw [hie]; exact DefSeq.nil 0
    · intro n
      rw [hie]
      simp [eventsDefs]
    · intro n hn; omega
    · intro n hn
      rw [hie] at hn
      cases hn
    · intro i j n _ hi _
      rw [hie] at hi
      exact absurd (List.get?_mem hi) (List.not_mem_nil _)
  | some code =>
    simp only [hcode] at h
    have hfinish : ∀ (rv : Option Var),
        (∀ fr ∈ ([(0, false, rv)] : List (Label × Bool × Option Var)),
          ∀ n, fr.2.2 ≠ some (Var.Stack n)) →
        (do
          let (stmts, wasElse, _) ← wimplify_instrs (code.length + 1)
            { module := module, func_ty := function.type_ }
            { instrs := code, label_count := 1, stack_var_count := 0,
              label_stack := [(0, false, rv)] } []
          if wasElse then Except.error (Failure.fatal "function should not end with else")
          else Except.ok (inits ++ stmts)) = Except.ok body →
        ∃ c', DefSeq 0 c' (eventsDefs (stmtsEvents body)) ∧
          (∀ n, n ∈ eventsDefs (stmtsEvents body) ↔ n < c') ∧
          (∀ n, n < c' → (eventsDefs (stmtsEvents body)).count n = 1 ∨
              (eventsDefs (stmtsEvents body)).count n = 2) ∧
          (∀ n, Event.readn n ∈ stmtsEvents body → n < c') ∧
          NoDefAfterRead (stmtsEvents body) := by
      intro rv hlsfun h
      rw [except_bind_ok] at h
      obtain ⟨⟨stmts, wasElse, sfin⟩, hrun, h⟩ := h
      split at h
      rename_i ds restStmts wasElse2 s4 heq
      simp only [Prod.mk.injEq] at heq
      obtain ⟨rfl, rfl, rfl⟩ := heq
      split at h
      · nomatch h
      · simp only [Except.ok.injEq] at h
        subst h
        obtain ⟨-, hok, -⟩ := wimplify_instrs_events (code.length + 1)
          { module := module, func_ty := function.type_ }
          { instrs := code, label_count := 1, stack_var_count := 0,
            label_stack := [(0, false, rv)] } [] stmts wasElse sfin hrun
          (fun n hn => absurd hn (List.not_mem_nil _)) hlsfun
        have hev : stmtsEvents (inits ++ stmts) = stmtsEvents stmts := by
          rw [stmtsEvents_append, hie, List.nil_append]
        rw [hev]
        refine ⟨sfin.stack_var_count, hok.defseq, ?_, ?_, hok.reads_lt, hok.ndar⟩
        · intro n
          rw [hok.defseq.mem_iff n]
          exact ⟨fun hp => hp.2, fun hp => ⟨Nat.zero_le _, hp⟩⟩
        · intro n hn
          exact hok.defseq.count_mem n (Nat.zero_le _) hn
    cases hres : function.type_.results with
    | nil =>
      simp only [hres] at h
      exact hfinish none
        (fun fr hfr n => by
          rcases List.mem_singleton.mp hfr with rfl
          exact fun hc => Option.noConfusion hc) h
    | cons r rs =>
      cases rs with
      | nil =>
        simp only [hres] at h
        exact hfinish (some (Var.Return 0))
          (fun fr hfr n => by
            rcases List.mem_singleton.mp hfr with rfl
            exact fun hc => Var.noConfusion (Option.some.inj hc)) h
      | cons r2 rs2 =>
        simp only [hres] at h
        nomatch h

/-- C8 witness: the amended discipline instantiated on the concrete select
function, whose lowering succeeds with body selectLoweredBody. -/
theorem C8_stack_var_discipline_witness :
    ∃ c', DefSeq 0 c' (eventsDefs (stmtsEvents selectLoweredBody)) ∧
      (∀ n, n ∈ eventsDefs (stmtsEvents selectLoweredBody) ↔ n < c') ∧
      (∀ n, n < c' → (eventsDefs (stmtsEvents selectLoweredBody)).count n = 1 ∨
          (eventsDefs (stmtsEvents selectLoweredBody)).count n = 2) ∧
      (∀ n, Event.readn n ∈ stmtsEvents selectLoweredBody → n < c') ∧
      NoDefAfterRead (stmtsEvents selectLoweredBody) :=
  C8_stack_var_discipline selectDoubleAssignFunction emptyModule selectLoweredBody rfl

end Wimplify
